import Mathlib

set_option maxHeartbeats 1000000

/- Shallow embedding of the go-tinylfu cache.  The repository carries two
   key-handling variants of the same engine: the string-keyed engine
   (src/unnamed/part_000) and an older uint64-keyed engine (src/tinylfu.go,
   which also contains that variant's window-LRU implementation).  Keys,
   values and fingerprints are modelled as `Nat` (the external xxhash
   fingerprint function is out of scope per spec section 1 and is embedded
   as the identity, so an item's `keyh` coincides with its key); Go
   `time.Time` is modelled as `Option Int`, with `none` standing for the
   zero time (`IsZero`) and `some n` for the instant `n`; `time.Unix(0,0)`
   is `some 0`, which is not the zero time.  The count-min sketch, the
   doorkeeper and the segmented LRU sources are not part of the provided
   tree (only their call sites are); they are modelled from the
   specification where marked. -/

namespace KL

/-- Generic first-match lookup by a numeric key projection, used to embed
Go map lookups that resolve to list slots. -/
def findKy {α : Type} (key : α → Nat) (k : Nat) : List α → Option α
  | [] => none
  | a :: rest => if key a = k then some a else findKy key k rest

/-- Generic removal of the first element with the given key, used to embed
detaching a slot from an intrusive list. -/
def eraseKy {α : Type} (key : α → Nat) (k : Nat) : List α → List α
  | [] => []
  | a :: rest => if key a = k then rest else a :: eraseKy key k rest

/-- Generic move-to-front of the element with the given key, the embedding
of `list.MoveToFront` on the element the dictionary resolves the key to. -/
def moveKy {α : Type} (key : α → Nat) (k : Nat) (l : List α) : List α :=
  match findKy key k l with
  | some a => a :: eraseKy key k l
  | none => l

/-- Generic in-place field rewrite of every element carrying the given key,
used to embed a write through the `*Item` pointer held by a list element. -/
def replKy {α : Type} (key : α → Nat) (k : Nat) (f : α → α) (l : List α) : List α :=
  l.map fun a => if key a = k then f a else a

end KL

namespace TinyLFU

/-- Modelled from the spec: the count-min sketch (cm4) source is not in the
provided tree.  Per section 4.1 the estimator never underestimates and its
counters are 4-bit saturating (section 3); it is embedded as an exact
per-fingerprint counter saturating at 15, kept as an association list. -/
def cmAdd : List (Nat × Nat) → Nat → List (Nat × Nat)
  | [], f => [(f, 1)]
  | (g, c) :: rest, f =>
    if g = f then (g, min (c + 1) 15) :: rest else (g, c) :: cmAdd rest f

/-- Modelled from the spec: `estimate(fingerprint) -> count` for the sketch
of `cmAdd`; a fingerprint never added since the last reset estimates 0. -/
def cmEstimate : List (Nat × Nat) → Nat → Nat
  | [], _ => 0
  | (g, c) :: rest, f => if g = f then c else cmEstimate rest f

/-- Modelled from the spec: the doorkeeper source is not in the provided
tree.  Per section 4.2 the first `allow` call for a fingerprint since the
last reset returns a negative signal and records the fingerprint; a repeat
call returns a positive signal.  The Bloom filter is embedded as the exact
set (list) of recorded fingerprints, ignoring false positives. -/
def dkAllow (door : List Nat) (f : Nat) : Bool × List Nat :=
  if f ∈ door then (true, door) else (false, f :: door)

/-- Cache entry of the string-keyed variant (part_000 lines 25-33): key,
value, optional absolute expiry and the presence of an eviction callback.
The Go fields `listid` and `keyh` are represented by list membership and
by the key itself respectively. -/
structure Item where
  key : Nat
  value : Option Nat
  expireAt : Option Int
  hasCb : Bool
deriving DecidableEq

/-- Expiry test from part_000 lines 35-37:
`!ExpireAt.IsZero() && time.Now().After(ExpireAt)`. -/
def Item.expired (it : Item) (now : Int) : Bool :=
  match it.expireAt with
  | none => false
  | some e => e < now

/-- Keys of the items of a list, in order. -/
def keysOf (l : List Item) : List Nat := l.map Item.key

/-- First item with the given key. -/
def findK (k : Nat) (l : List Item) : Option Item := KL.findKy Item.key k l

/-- Remove the first item with the given key. -/
def eraseK (k : Nat) (l : List Item) : List Item := KL.eraseKy Item.key k l

/-- Move the item with the given key to the front (MRU end). -/
def moveToFrontK (k : Nat) (l : List Item) : List Item := KL.moveKy Item.key k l

/-- Overwrite the value field of the item with the given key, the embedding
of `item.Value = newItem.Value` through the element pointer. -/
def updValue (k : Nat) (v : Option Nat) (l : List Item) : List Item :=
  KL.replKy Item.key k (fun it => { it with value := v }) l

/-- Which list currently owns a slot (the Go `listid`: 0 window,
1 probation, 2 protected). -/
inductive ListId
  | window
  | probation
  | prot
deriving DecidableEq

/-- Static configuration chosen by the constructor and never mutated:
sample threshold and the three list capacities. -/
structure Cfg where
  samples : Nat
  lruCap : Nat
  probCap : Nat
  protCap : Nat
deriving DecidableEq

/-- Mutable engine state of the string-keyed variant: reset counter,
sketch, doorkeeper, the three lists (front = MRU) and the log of keys
whose eviction callback has been invoked, in order.  The Go `data`
Dictionary maps exactly the keys resident in the three lists to their
slots and is embedded as that derived mapping. -/
structure T where
  w : Nat
  sketch : List (Nat × Nat)
  door : List Nat
  window : List Item
  probation : List Item
  prot : List Item
  evLog : List Nat
deriving DecidableEq

/-- Constructor sizing from part_000 lines 56-86 (identical in
src/tinylfu.go lines 26-58).  The Go float expressions
`int(float64(size) * 0.99)` and `int(0.2 * float64(slruSize))` compute the
integer floors `99*size/100` and `slruSize/5`, embedded as exact `Nat`
divisions; each share is clamped below by 1. -/
def New (size samples : Nat) : Cfg × T :=
  let lruSize := max ((1 * size) / 100) 1
  let slruSize := max ((99 * size) / 100) 1
  let slru20 := max (slruSize / 5) 1
  (⟨samples, lruSize, slru20, slruSize - slru20⟩, ⟨0, [], [], [], [], [], []⟩)

/-- Callback dispatch from part_000 lines 88-92: invoke the item's
eviction callback when present (recorded by appending the key to the
log). -/
def onEvict (t : T) (it : Item) : T :=
  if it.hasCb then { t with evLog := t.evLog ++ [it.key] } else t

/-- Modelled from the spec: the string-keyed window-LRU source is not in
the provided tree.  Per section 4.3, `add` inserts at the MRU end when
under capacity (no eviction); at capacity it evicts the LRU slot,
overwrites it in place with the new item and returns the evicted item by
value. -/
def lruAdd (cap : Nat) (it : Item) (win : List Item) : Option Item × List Item :=
  if win.length < cap then (none, it :: win)
  else
    match win.getLast? with
    | none => (none, [it])
    | some old => (some old, it :: win.dropLast)

/-- Modelled from the spec: the segmented-LRU source is not in the provided
tree.  Per section 4.4, `victim` returns the probation LRU item without
removing it, or none while the main cache still has spare capacity. -/
def slruVictim (c : Cfg) (t : T) : Option Item :=
  if t.probation.length + t.prot.length < c.probCap + c.protCap then none
  else t.probation.getLast?

/-- Modelled from the spec: segmented-LRU `add` (section 4.4) always
inserts at probation's MRU end.  To respect the Dictionary capacity
invariant of section 3 it reuses the probation tail slot when the main
cache is full, in the in-place overwrite style section 4.3 prescribes for
the window; the displaced item leaves the cache, so per the section 6
callback contract its eviction callback fires. -/
def slruAdd (c : Cfg) (t : T) (it : Item) : T :=
  if t.probation.length + t.prot.length < c.probCap + c.protCap then
    { t with probation := it :: t.probation }
  else
    match t.probation.getLast? with
    | none => { t with probation := [it] }
    | some victim =>
      onEvict { t with probation := it :: t.probation.dropLast } victim

/-- Modelled from the spec: segmented-LRU `get` (section 4.4).  A protected
slot moves to protected's MRU end; a probation slot is promoted to
protected's MRU end, demoting the protected LRU tail to probation's MRU
end when protected is full.  When protected has zero capacity (and hence
no tail to demote) the slot cannot be promoted and is refreshed at
probation's MRU end. -/
def slruGet (c : Cfg) (t : T) (k : Nat) : T :=
  match findK k t.prot with
  | some _ => { t with prot := moveToFrontK k t.prot }
  | none =>
    match findK k t.probation with
    | none => t
    | some it =>
      if t.prot.length < c.protCap then
        { t with probation := eraseK k t.probation, prot := it :: t.prot }
      else
        match t.prot.getLast? with
        | none => { t with probation := moveToFrontK k t.probation }
        | some demoted =>
          { t with probation := demoted :: eraseK k t.probation,
                   prot := it :: t.prot.dropLast }

/-- Dictionary lookup (part_000 `t.data[key]`): resolve a key to its
owning list and item.  The window is the `listid = 0` case. -/
def findOwner (t : T) (k : Nat) : Option (ListId × Item) :=
  match findK k t.window with
  | some it => some (.window, it)
  | none =>
    match findK k t.probation with
    | some it => some (.probation, it)
    | none =>
      match findK k t.prot with
      | some it => some (.prot, it)
      | none => none

/-- Error of `Add` on a resident key (part_000 line 130). -/
inductive SetErr
  | keyAlreadyExists
deriving DecidableEq

/-- Resident-key update path of `set` (part_000 lines 148-160): overwrite
the stored value through the element pointer, bump the sketch at the
stored fingerprint and refresh the slot in its owning list. -/
def setExisting (c : Cfg) (t : T) (newIt : Item) (lid : ListId) : T :=
  let t1 := { t with window := updValue newIt.key newIt.value t.window,
                     probation := updValue newIt.key newIt.value t.probation,
                     prot := updValue newIt.key newIt.value t.prot }
  let t2 := { t1 with sketch := cmAdd t1.sketch newIt.key }
  match lid with
  | .window => { t2 with window := moveToFrontK newIt.key t2.window }
  | _ => slruGet c t2 newIt.key

/-- Admission decision of `set` once the window evicted an item
(part_000 lines 170-191): no victim admits unconditionally; a doorkeeper
miss discards the evictee with its callback; otherwise the evictee is
admitted exactly when `itemCount > victimCount`. -/
def setOnEvicted (c : Cfg) (t1 : T) (old : Item) : T :=
  match slruVictim c t1 with
  | none => slruAdd c t1 old
  | some v =>
    match dkAllow t1.door old.key with
    | (seen, door2) =>
      let t2 := { t1 with door := door2 }
      if seen = false then onEvict t2 old
      else
        if cmEstimate t2.sketch v.key < cmEstimate t2.sketch old.key then
          slruAdd c t2 old
        else onEvict t2 old

/-- New-key path of `set` (part_000 lines 163-191): insert through the
window; when the window evicts, run the admission decision. -/
def setNew (c : Cfg) (t : T) (newIt : Item) : T :=
  match lruAdd c.lruCap newIt t.window with
  | (none, win) => { t with window := win }
  | (some old, win) => setOnEvicted c { t with window := win } old

/-- The common upsert path, part_000 lines 142-192, dispatching on whether
the key is already resident. -/
def set (c : Cfg) (t : T) (newIt : Item) (failIfKeyExists : Bool) : Option SetErr × T :=
  match findOwner t newIt.key with
  | some (lid, _) =>
    if failIfKeyExists then (some .keyAlreadyExists, t)
    else (none, setExisting c t newIt lid)
  | none => (none, setNew c t newIt)

/-- `Set` (part_000 lines 137-140): upsert, never fails. -/
def Set (c : Cfg) (t : T) (it : Item) : T := (set c t it false).2

/-- `Add` (part_000 lines 132-135): insert-only. -/
def Add (c : Cfg) (t : T) (it : Item) : Option SetErr × T := set c t it true

/-- Internal removal, part_000 lines 201-212: delete the Dictionary entry,
detach the slot from the window (`listid = 0`) or from the segmented LRU
(`slru.Remove` detaches from whichever segment owns it, section 4.4), then
invoke the eviction callback. -/
def delKey (t : T) (k : Nat) : T :=
  match findOwner t k with
  | none => t
  | some (lid, it) =>
    let t1 := match lid with
      | .window => { t with window := eraseK k t.window }
      | _ => { t with probation := eraseK k t.probation, prot := eraseK k t.prot }
    onEvict t1 it

/-- `Del` (part_000 lines 195-199): remove the key when present. -/
def Del (t : T) (k : Nat) : T := delKey t k

/-- Hit path of `Get` (part_000 lines 111-126): an expired item is removed
and reported missing; a live one is refreshed in its owning list and its
value returned. -/
def getFound (c : Cfg) (t2 : T) (k : Nat) (now : Int) (lid : ListId) (it : Item) :
    (Option Nat × Bool) × T :=
  if it.expired now then ((none, false), delKey t2 k)
  else
    let t3 := match lid with
      | .window => { t2 with window := moveToFrontK k t2.window }
      | _ => slruGet c t2 k
    ((it.value, true), t3)

/-- Dictionary lookup step of `Get` (part_000 lines 106-109). -/
def getLookup (c : Cfg) (t2 : T) (k : Nat) (now : Int) : (Option Nat × Bool) × T :=
  match findOwner t2 k with
  | none => ((none, false), t2)
  | some (lid, it) => getFound c t2 k now lid it

/-- `Get` (part_000 lines 95-127): bump the reset counter, resetting both
structures in the same step when it reaches the sample threshold; always
bump the sketch at the key's fingerprint; then look the key up. -/
def Get (c : Cfg) (t : T) (k : Nat) (now : Int) : (Option Nat × Bool) × T :=
  let t1 := if t.w + 1 = c.samples then { t with w := 0, sketch := [], door := [] }
            else { t with w := t.w + 1 }
  getLookup c { t1 with sketch := cmAdd t1.sketch k } k now

/-- Number of live Dictionary entries: every resident slot is reachable
from `data` and vice versa. -/
def dictSize (t : T) : Nat :=
  t.window.length + t.probation.length + t.prot.length

/-- One public mutating call of the kind claim C3 quantifies over. -/
inductive Op
  | setOp (it : Item)
  | addOp (it : Item)

/-- Apply one `Set`/`Add` call. -/
def applyOp (c : Cfg) (t : T) : Op → T
  | .setOp it => (set c t it false).2
  | .addOp it => (set c t it true).2

/-- Run a sequence of `Set`/`Add` calls. -/
def runOps (c : Cfg) (t : T) : List Op → T
  | [] => t
  | o :: rest => runOps c (applyOp c t o) rest

/-- Length well-formedness: every list respects its capacity and the
constructor floors of 1 hold. -/
def WfLen (c : Cfg) (t : T) : Prop :=
  t.window.length ≤ c.lruCap ∧
  t.probation.length + t.prot.length ≤ c.probCap + c.protCap ∧
  t.prot.length ≤ c.protCap ∧
  1 ≤ c.probCap ∧ 1 ≤ c.lruCap

/-- No key of the first list occurs in the second. -/
def Disj (a b : List Nat) : Prop := ∀ x ∈ a, x ∉ b

/-- Key well-formedness of the Dictionary: at most one live slot per key. -/
def KeysOk (t : T) : Prop :=
  (keysOf t.window).Nodup ∧ (keysOf t.probation).Nodup ∧ (keysOf t.prot).Nodup ∧
  Disj (keysOf t.window) (keysOf t.probation) ∧
  Disj (keysOf t.window) (keysOf t.prot) ∧
  Disj (keysOf t.probation) (keysOf t.prot)

instance decDisj (a b : List Nat) : Decidable (Disj a b) :=
  List.decidableBAll _ a

instance decKeysOk (t : T) : Decidable (KeysOk t) := by
  unfold KeysOk
  infer_instance

/-- Whether the slot owning the key sits at the MRU end of its owning
list (the observable effect of a refresh/promotion). -/
def ownerMRU (t : T) (k : Nat) : Bool :=
  match findOwner t k with
  | some (.window, _) => (keysOf t.window).head? == some k
  | some (.probation, _) => (keysOf t.probation).head? == some k
  | some (.prot, _) => (keysOf t.prot).head? == some k
  | none => false

end TinyLFU

namespace TinyLFU64

open TinyLFU (Cfg cmAdd cmEstimate dkAllow)

/-- Cache entry of the uint64-keyed variant (src/tinylfu.go): pre-hashed
key, value and optional expiry; this variant has no eviction callback. -/
structure UItem where
  key : Nat
  value : Option Nat
  expireAt : Option Int
deriving DecidableEq

/-- Value held by a `container/list` element in the uint64 variant.  The
window `add` under capacity stores `&newItem` (a `**Item`,
src/tinylfu.go line 184), while every reader asserts `*Item`. -/
inductive UVal
  | pItem (it : UItem)
  | ppItem (it : UItem)
deriving DecidableEq

/-- A Go runtime panic from a failed `.(*Item)` type assertion. -/
inductive UPanic
  | typeAssert
deriving DecidableEq

/-- Engine state of the uint64-keyed variant.  The window is kept as
(dictionary key, element value) pairs; the segmented LRU lists (whose
source is absent from the tree) hold plain items. -/
structure UT where
  w : Nat
  sketch : List (Nat × Nat)
  door : List Nat
  window : List (Nat × UVal)
  probation : List UItem
  prot : List UItem
deriving DecidableEq

/-- Constructor of the uint64 variant (src/tinylfu.go lines 26-58), same
sizing arithmetic as the string variant. -/
def uNew (size samples : Nat) : Cfg × UT :=
  let lruSize := max ((1 * size) / 100) 1
  let slruSize := max ((99 * size) / 100) 1
  let slru20 := max (slruSize / 5) 1
  (⟨samples, lruSize, slru20, slruSize - slru20⟩, ⟨0, [], [], [], [], []⟩)

/-- Window `add` of the uint64 variant (src/tinylfu.go lines 182-201).
Under capacity it pushes `&newItem`, storing a `**Item` element value; at
capacity it asserts the tail element to `*Item` — which panics whenever
the tail was pushed by the under-capacity branch — and otherwise reuses
the tail slot in place. -/
def ulruAdd (cap : Nat) (it : UItem) (win : List (Nat × UVal)) :
    Except UPanic (Option UItem × List (Nat × UVal)) :=
  if win.length < cap then .ok (none, (it.key, .ppItem it) :: win)
  else
    match win.getLast? with
    | none => .ok (none, [(it.key, .ppItem it)])
    | some (_, .ppItem _) => .error .typeAssert
    | some (_, .pItem old) => .ok (some old, (it.key, .pItem it) :: win.dropLast)

/-- Modelled from the spec: segmented-LRU `victim` for the uint64 variant
(its slru source is not in the provided tree), as in the string model. -/
def uslruVictim (c : Cfg) (t : UT) : Option UItem :=
  if t.probation.length + t.prot.length < c.probCap + c.protCap then none
  else t.probation.getLast?

/-- Modelled from the spec: segmented-LRU `add` for the uint64 variant, as
in the string model but with no eviction callbacks in this variant. -/
def uslruAdd (c : Cfg) (t : UT) (it : UItem) : UT :=
  if t.probation.length + t.prot.length < c.probCap + c.protCap then
    { t with probation := it :: t.probation }
  else
    match t.probation.getLast? with
    | none => { t with probation := [it] }
    | some _ => { t with probation := it :: t.probation.dropLast }

/-- Modelled from the spec: segmented-LRU `get` for the uint64 variant, as
in the string model. -/
def uslruGet (c : Cfg) (t : UT) (k : Nat) : UT :=
  match KL.findKy UItem.key k t.prot with
  | some _ => { t with prot := KL.moveKy UItem.key k t.prot }
  | none =>
    match KL.findKy UItem.key k t.probation with
    | none => t
    | some it =>
      if t.prot.length < c.protCap then
        { t with probation := KL.eraseKy UItem.key k t.probation, prot := it :: t.prot }
      else
        match t.prot.getLast? with
        | none => { t with probation := KL.moveKy UItem.key k t.probation }
        | some demoted =>
          { t with probation := demoted :: KL.eraseKy UItem.key k t.probation,
                   prot := it :: t.prot.dropLast }

/-- Found-item result of the uint64 `Get` (src/tinylfu.go lines 83-87):
return the value iff the expiry is zero or still ahead; an expired item
yields a miss but is not removed. -/
def ureturn (it : UItem) (now : Int) : Option Nat × Bool :=
  match it.expireAt with
  | none => (it.value, true)
  | some e => if now < e then (it.value, true) else (none, false)

/-- `Get` of the uint64 variant (src/tinylfu.go lines 60-88).  The
dictionary hit asserts the element value to `*Item` (line 74), which
panics on every window slot stored by the under-capacity `add`. -/
def uGet (c : Cfg) (t : UT) (k : Nat) (now : Int) :
    Except UPanic ((Option Nat × Bool) × UT) :=
  let w2 := t.w + 1
  let t1 := if w2 = c.samples then { t with w := 0, sketch := [], door := [] }
            else { t with w := w2 }
  match KL.findKy Prod.fst k t1.window with
  | some (_, UVal.ppItem _) => .error .typeAssert
  | some (_, UVal.pItem it) =>
    let t2 := { t1 with sketch := cmAdd t1.sketch it.key }
    let t3 := { t2 with window := KL.moveKy Prod.fst k t2.window }
    .ok (ureturn it now, t3)
  | none =>
    match KL.findKy UItem.key k t1.probation with
    | some it =>
      let t2 := { t1 with sketch := cmAdd t1.sketch it.key }
      .ok (ureturn it now, uslruGet c t2 k)
    | none =>
      match KL.findKy UItem.key k t1.prot with
      | some it =>
        let t2 := { t1 with sketch := cmAdd t1.sketch it.key }
        .ok (ureturn it now, uslruGet c t2 k)
      | none => .ok ((none, false), { t1 with sketch := cmAdd t1.sketch k })

/-- `Set` of the uint64 variant (src/tinylfu.go lines 90-115): no
resident-key check; window insert, then victim, doorkeeper and the
comparison `if ocount < vcount {return}` — the challenger is admitted on a
tie.  No eviction callbacks exist in this variant. -/
def uSet (c : Cfg) (t : UT) (it : UItem) : Except UPanic UT :=
  match ulruAdd c.lruCap it t.window with
  | .error e => .error e
  | .ok (none, win) => .ok { t with window := win }
  | .ok (some old, win) =>
    let t1 := { t with window := win }
    match uslruVictim c t1 with
    | none => .ok (uslruAdd c t1 old)
    | some v =>
      match dkAllow t1.door old.key with
      | (seen, door2) =>
        let t2 := { t1 with door := door2 }
        if seen = false then .ok t2
        else
          if cmEstimate t2.sketch old.key < cmEstimate t2.sketch v.key then .ok t2
          else .ok (uslruAdd c t2 old)

/-- Lazy-delete rewrite of an item through the asserted `*Item` pointer:
nil the value and set the expiry to `time.Unix(0,0)`. -/
def lazyDelItem (it : UItem) : UItem :=
  { it with value := none, expireAt := some 0 }

/-- Lazy-delete rewrite of a window element value. -/
def lazyDelVal : Nat × UVal → Nat × UVal
  | (g, UVal.pItem it) => (g, UVal.pItem (lazyDelItem it))
  | (g, UVal.ppItem it) => (g, UVal.ppItem it)

/-- `Del` of the uint64 variant (src/tinylfu.go lines 117-124): when the
key is present, assert the element to `*Item` (panicking on window slots)
and merely nil the value and backdate the expiry to `time.Unix(0,0)`; the
Dictionary entry and the slot stay in place. -/
def uDel (t : UT) (k : Nat) : Except UPanic UT :=
  match KL.findKy Prod.fst k t.window with
  | some (_, UVal.ppItem _) => .error .typeAssert
  | some (_, UVal.pItem _) =>
    .ok { t with window := KL.replKy Prod.fst k lazyDelVal t.window }
  | none =>
    match KL.findKy UItem.key k t.probation with
    | some _ =>
      .ok { t with probation := KL.replKy UItem.key k lazyDelItem t.probation }
    | none =>
      match KL.findKy UItem.key k t.prot with
      | some _ =>
        .ok { t with prot := KL.replKy UItem.key k lazyDelItem t.prot }
      | none => .ok t

/-- Total number of occupied slots in the uint64 variant. -/
def udictSize (t : UT) : Nat :=
  t.window.length + t.probation.length + t.prot.length

end TinyLFU64

/-- Kind of lock acquired by a method of a synchronized wrapper. -/
inductive LockMode
  | shared
  | exclusive
deriving DecidableEq

/-- Lock taken by the string-variant `SyncT.Get` (part_000 lines 229-235):
`mu.RLock()` on the `sync.RWMutex`, a shared read lock. -/
def strGetLockMode : LockMode := .shared

/-- Lock taken by the string-variant `SyncT.Set` (part_000 lines 237-241):
`mu.Lock()`, exclusive. -/
def strSetLockMode : LockMode := .exclusive

/-- Lock taken by the string-variant `SyncT.Add` (part_000 lines 243-249):
`mu.Lock()`, exclusive. -/
def strAddLockMode : LockMode := .exclusive

/-- Lock taken by the string-variant `SyncT.Del` (part_000 lines 251-255):
`mu.Lock()`, exclusive. -/
def strDelLockMode : LockMode := .exclusive

/-- Lock taken by the uint64-variant `SyncT.Get` (src/tinylfu.go lines
139-144): `mu.Lock()` on the `sync.Mutex`, exclusive. -/
def u64GetLockMode : LockMode := .exclusive

/-- Lock taken by the uint64-variant `SyncT.Set` (src/tinylfu.go lines
146-150): `mu.Lock()`, exclusive. -/
def u64SetLockMode : LockMode := .exclusive

/-- Lock taken by the uint64-variant `SyncT.Del` (src/tinylfu.go lines
152-156): `mu.Lock()`, exclusive. -/
def u64DelLockMode : LockMode := .exclusive


namespace KL

variable {α : Type} {key : α → Nat} {k : Nat} {a b : α} {l : List α}

theorem findKy_nil : findKy key k ([] : List α) = none := rfl

theorem findKy_cons_pos (h : key b = k) (l : List α) :
    findKy key k (b :: l) = some b := by
  simp [findKy, h]

theorem findKy_cons_neg (h : ¬key b = k) (l : List α) :
    findKy key k (b :: l) = findKy key k l := by
  simp [findKy, h]

theorem eraseKy_cons_pos (h : key b = k) (l : List α) :
    eraseKy key k (b :: l) = l := by
  simp [eraseKy, h]

theorem eraseKy_cons_neg (h : ¬key b = k) (l : List α) :
    eraseKy key k (b :: l) = b :: eraseKy key k l := by
  simp [eraseKy, h]

theorem replKy_cons (f : α → α) (b : α) (l : List α) :
    replKy key k f (b :: l) =
      (if key b = k then f b else b) :: replKy key k f l := rfl

theorem findKy_some_key (h : findKy key k l = some a) : key a = k := by
  induction l with
  | nil => exact absurd h (by simp [findKy])
  | cons b rest ih =>
    by_cases hb : key b = k
    · rw [findKy_cons_pos hb] at h
      cases h
      exact hb
    · rw [findKy_cons_neg hb] at h
      exact ih h

theorem findKy_mem (h : findKy key k l = some a) : a ∈ l := by
  induction l with
  | nil => exact absurd h (by simp [findKy])
  | cons b rest ih =>
    by_cases hb : key b = k
    · rw [findKy_cons_pos hb] at h
      cases h
      exact List.mem_cons_self _ _
    · rw [findKy_cons_neg hb] at h
      exact List.mem_cons_of_mem _ (ih h)

theorem findKy_eq_none_iff : findKy key k l = none ↔ k ∉ l.map key := by
  induction l with
  | nil => simp [findKy]
  | cons b rest ih =>
    by_cases hb : key b = k
    · rw [findKy_cons_pos hb]
      simp [hb]
    · rw [findKy_cons_neg hb]
      rw [ih]
      simp only [List.map_cons, List.mem_cons]
      constructor
      · intro h hor
        rcases hor with h1 | h2
        · exact hb h1.symm
        · exact h h2
      · intro h h2
        exact h (Or.inr h2)

theorem findKy_isSome_of_mem (h : k ∈ l.map key) :
    ∃ c, findKy key k l = some c := by
  rcases hf : findKy key k l with _ | c
  · exact absurd h (findKy_eq_none_iff.mp hf)
  · exact ⟨c, rfl⟩

theorem length_eraseKy_of_find (h : findKy key k l = some a) :
    (eraseKy key k l).length + 1 = l.length := by
  induction l with
  | nil => exact absurd h (by simp [findKy])
  | cons b rest ih =>
    by_cases hb : key b = k
    · rw [eraseKy_cons_pos hb]
      rfl
    · rw [findKy_cons_neg hb] at h
      rw [eraseKy_cons_neg hb]
      simp only [List.length_cons]
      rw [← ih h]

theorem perm_cons_eraseKy (h : findKy key k l = some a) :
    l.Perm (a :: eraseKy key k l) := by
  induction l with
  | nil => exact absurd h (by simp [findKy])
  | cons b rest ih =>
    by_cases hb : key b = k
    · rw [findKy_cons_pos hb] at h
      cases h
      rw [eraseKy_cons_pos hb]
    · rw [findKy_cons_neg hb] at h
      rw [eraseKy_cons_neg hb]
      exact ((ih h).cons b).trans (List.Perm.swap a b _)

theorem perm_moveKy (k : Nat) (l : List α) : (moveKy key k l).Perm l := by
  unfold moveKy
  rcases h : findKy key k l with _ | a
  · exact List.Perm.refl l
  · exact (perm_cons_eraseKy h).symm

theorem length_moveKy (k : Nat) (l : List α) :
    (moveKy key k l).length = l.length :=
  (perm_moveKy k l).length_eq

theorem keys_moveKy_perm (k : Nat) (l : List α) :
    ((moveKy key k l).map key).Perm (l.map key) :=
  (perm_moveKy k l).map key

theorem mem_eraseKy (h : a ∈ eraseKy key k l) : a ∈ l := by
  induction l with
  | nil => exact absurd h (by simp [eraseKy])
  | cons b rest ih =>
    by_cases hb : key b = k
    · rw [eraseKy_cons_pos hb] at h
      exact List.mem_cons_of_mem _ h
    · rw [eraseKy_cons_neg hb] at h
      rcases List.mem_cons.mp h with h1 | h2
      · exact h1 ▸ List.mem_cons_self _ _
      · exact List.mem_cons_of_mem _ (ih h2)

theorem keys_eraseKy_sub {g : Nat} (h : g ∈ (eraseKy key k l).map key) :
    g ∈ l.map key := by
  rcases List.mem_map.mp h with ⟨c, hc, rfl⟩
  exact List.mem_map.mpr ⟨c, mem_eraseKy hc, rfl⟩

theorem not_mem_keys_eraseKy_self (hnd : (l.map key).Nodup) :
    k ∉ (eraseKy key k l).map key := by
  induction l with
  | nil => simp [eraseKy]
  | cons b rest ih =>
    simp only [List.map_cons, List.nodup_cons] at hnd
    by_cases hb : key b = k
    · rw [eraseKy_cons_pos hb]
      rw [← hb]
      exact hnd.1
    · rw [eraseKy_cons_neg hb]
      simp only [List.map_cons, List.mem_cons]
      rintro (h1 | h2)
      · exact hb h1.symm
      · exact ih hnd.2 h2

theorem nodup_keys_eraseKy (hnd : (l.map key).Nodup) :
    ((eraseKy key k l).map key).Nodup := by
  induction l with
  | nil => simp [eraseKy]
  | cons b rest ih =>
    simp only [List.map_cons, List.nodup_cons] at hnd
    by_cases hb : key b = k
    · rw [eraseKy_cons_pos hb]
      exact hnd.2
    · rw [eraseKy_cons_neg hb]
      simp only [List.map_cons, List.nodup_cons]
      exact ⟨fun h => hnd.1 (keys_eraseKy_sub h), ih hnd.2⟩

theorem findKy_eraseKy_self (hnd : (l.map key).Nodup) :
    findKy key k (eraseKy key k l) = none :=
  findKy_eq_none_iff.mpr (not_mem_keys_eraseKy_self hnd)

theorem keys_replKy {f : α → α} (hf : ∀ c, key (f c) = key c) (l : List α) :
    (replKy key k f l).map key = l.map key := by
  induction l with
  | nil => rfl
  | cons b rest ih =>
    rw [replKy_cons]
    by_cases hb : key b = k
    · simp only [List.map_cons, if_pos hb, hf, ih]
    · simp only [List.map_cons, if_neg hb, ih]

theorem length_replKy (k : Nat) (f : α → α) (l : List α) :
    (replKy key k f l).length = l.length := by
  simp [replKy]

theorem findKy_replKy_self {f : α → α} (h : findKy key k l = some a)
    (hf : ∀ c, key (f c) = key c) :
    findKy key k (replKy key k f l) = some (f a) := by
  induction l with
  | nil => exact absurd h (by simp [findKy])
  | cons b rest ih =>
    rw [replKy_cons]
    by_cases hb : key b = k
    · rw [findKy_cons_pos hb] at h
      cases h
      rw [if_pos hb]
      exact findKy_cons_pos (by rw [hf]; exact hb) _
    · rw [findKy_cons_neg hb] at h
      rw [if_neg hb]
      rw [findKy_cons_neg hb]
      exact ih h

theorem findKy_replKy_none {f : α → α} (h : findKy key k l = none)
    (hf : ∀ c, key (f c) = key c) :
    findKy key k (replKy key k f l) = none := by
  rw [findKy_eq_none_iff] at h ⊢
  rwa [keys_replKy hf]

theorem moveKy_eq_of_find (h : findKy key k l = some a) :
    moveKy key k l = a :: eraseKy key k l := by
  unfold moveKy
  rw [h]

theorem moveKy_eq_of_none (h : findKy key k l = none) :
    moveKy key k l = l := by
  unfold moveKy
  rw [h]

theorem findKy_moveKy_self (h : findKy key k l = some a) :
    findKy key k (moveKy key k l) = some a := by
  rw [moveKy_eq_of_find h]
  exact findKy_cons_pos (findKy_some_key h) _

theorem getLast?_spec (h : l.getLast? = some a) : l = l.dropLast ++ [a] := by
  induction l with
  | nil => exact absurd h (by simp)
  | cons b rest ih =>
    rcases rest with _ | ⟨c, rest2⟩
    · simp only [List.getLast?_singleton, Option.some.injEq] at h
      rw [h]
      rfl
    · rw [List.getLast?_cons_cons] at h
      have h2 := ih h
      calc b :: c :: rest2 = b :: ((c :: rest2).dropLast ++ [a]) := by rw [← h2]
        _ = (b :: c :: rest2).dropLast ++ [a] := by simp

theorem mem_of_getLast? (h : l.getLast? = some a) : a ∈ l := by
  rw [getLast?_spec h]
  simp

end KL

namespace TinyLFU

theorem cmEstimate_cmAdd_self (s : List (Nat × Nat)) (f : Nat) :
    cmEstimate (cmAdd s f) f = min (cmEstimate s f + 1) 15 := by
  induction s with
  | nil => simp [cmAdd, cmEstimate]
  | cons p rest ih =>
    rcases p with ⟨g, c⟩
    by_cases hg : g = f
    · simp [cmAdd, cmEstimate, hg]
    · simp [cmAdd, cmEstimate, hg, ih]

theorem cmEstimate_fresh (f g : Nat) (h : ¬f = g) :
    cmEstimate (cmAdd [] f) g = 0 := by
  simp [cmAdd, cmEstimate, h]

theorem onEvict_proj (t : T) (it : Item) :
    (onEvict t it).w = t.w ∧ (onEvict t it).sketch = t.sketch ∧
    (onEvict t it).door = t.door ∧ (onEvict t it).window = t.window ∧
    (onEvict t it).probation = t.probation ∧ (onEvict t it).prot = t.prot := by
  unfold onEvict
  split <;> exact ⟨rfl, rfl, rfl, rfl, rfl, rfl⟩

theorem onEvict_evLog (t : T) (it : Item) :
    (onEvict t it).evLog = t.evLog ++ (if it.hasCb then [it.key] else []) := by
  unfold onEvict
  split
  · rfl
  · simp

theorem slruGet_proj (c : Cfg) (t : T) (k : Nat) :
    (slruGet c t k).w = t.w ∧ (slruGet c t k).sketch = t.sketch ∧
    (slruGet c t k).door = t.door ∧ (slruGet c t k).window = t.window ∧
    (slruGet c t k).evLog = t.evLog := by
  unfold slruGet
  repeat' split
  all_goals exact ⟨rfl, rfl, rfl, rfl, rfl⟩

theorem slruAdd_proj (c : Cfg) (t : T) (it : Item) :
    (slruAdd c t it).w = t.w ∧ (slruAdd c t it).sketch = t.sketch ∧
    (slruAdd c t it).door = t.door ∧ (slruAdd c t it).window = t.window := by
  unfold slruAdd
  repeat' split
  · exact ⟨rfl, rfl, rfl, rfl⟩
  · exact ⟨rfl, rfl, rfl, rfl⟩
  · rename_i victim heq
    refine ⟨(onEvict_proj _ _).1, ?_, ?_, ?_⟩
    · exact (onEvict_proj _ _).2.1
    · exact (onEvict_proj _ _).2.2.1
    · exact (onEvict_proj _ _).2.2.2.1

theorem delKey_proj (t : T) (k : Nat) :
    (delKey t k).w = t.w ∧ (delKey t k).sketch = t.sketch ∧
    (delKey t k).door = t.door := by
  unfold delKey
  repeat' split
  · exact ⟨rfl, rfl, rfl⟩
  · exact ⟨(onEvict_proj _ _).1, (onEvict_proj _ _).2.1, (onEvict_proj _ _).2.2.1⟩
  · exact ⟨(onEvict_proj _ _).1, (onEvict_proj _ _).2.1, (onEvict_proj _ _).2.2.1⟩

theorem getFound_proj (c : Cfg) (t2 : T) (k : Nat) (now : Int) (lid : ListId) (it : Item) :
    (getFound c t2 k now lid it).2.w = t2.w
    ∧ (getFound c t2 k now lid it).2.sketch = t2.sketch
    ∧ (getFound c t2 k now lid it).2.door = t2.door := by
  unfold getFound
  split
  · exact ⟨(delKey_proj _ _).1, (delKey_proj _ _).2.1, (delKey_proj _ _).2.2⟩
  · cases lid
    · exact ⟨rfl, rfl, rfl⟩
    · exact ⟨(slruGet_proj _ _ _).1, (slruGet_proj _ _ _).2.1, (slruGet_proj _ _ _).2.2.1⟩
    · exact ⟨(slruGet_proj _ _ _).1, (slruGet_proj _ _ _).2.1, (slruGet_proj _ _ _).2.2.1⟩

theorem getLookup_proj (c : Cfg) (t2 : T) (k : Nat) (now : Int) :
    (getLookup c t2 k now).2.w = t2.w
    ∧ (getLookup c t2 k now).2.sketch = t2.sketch
    ∧ (getLookup c t2 k now).2.door = t2.door := by
  unfold getLookup
  split
  · exact ⟨rfl, rfl, rfl⟩
  · exact getFound_proj _ _ _ _ _ _

theorem get_state_proj (c : Cfg) (t : T) (k : Nat) (now : Int) :
    (Get c t k now).2.w = (if t.w + 1 = c.samples then 0 else t.w + 1)
    ∧ (Get c t k now).2.door = (if t.w + 1 = c.samples then [] else t.door)
    ∧ (Get c t k now).2.sketch
        = cmAdd (if t.w + 1 = c.samples then [] else t.sketch) k := by
  by_cases hw : t.w + 1 = c.samples
  · simp only [Get, hw, if_pos]
    exact ⟨(getLookup_proj _ _ _ _).1, (getLookup_proj _ _ _ _).2.2,
           (getLookup_proj _ _ _ _).2.1⟩
  · simp only [Get, hw, if_neg, ite_false]
    exact ⟨(getLookup_proj _ _ _ _).1, (getLookup_proj _ _ _ _).2.2,
           (getLookup_proj _ _ _ _).2.1⟩

end TinyLFU

open TinyLFU TinyLFU64

/-- C6: in the uint64-keyed variant the window `add` stores `&newItem`
(a `**Item`) as the element value on the under-capacity branch, while
`Get` and the at-capacity eviction branch assert `*Item`; concretely,
from `New(10, 100)` (window capacity 1) a first `Set` succeeds and leaves
a `**Item` element, after which `Get` of that key and the window-filling
second `Set` both fail the type assertion and panic. -/
theorem claim_c6_u64_type_assert_panics :
    uSet (uNew 10 100).1 (uNew 10 100).2 ⟨5, some 1, none⟩
      = Except.ok ⟨0, [], [], [(5, UVal.ppItem ⟨5, some 1, none⟩)], [], []⟩
    ∧ uGet (uNew 10 100).1 ⟨0, [], [], [(5, UVal.ppItem ⟨5, some 1, none⟩)], [], []⟩ 5 0
      = Except.error UPanic.typeAssert
    ∧ uSet (uNew 10 100).1 ⟨0, [], [], [(5, UVal.ppItem ⟨5, some 1, none⟩)], [], []⟩
        ⟨6, some 2, none⟩
      = Except.error UPanic.typeAssert :=
  ⟨rfl, rfl, rfl⟩

/-- C10: the string-keyed synchronized wrapper guards `Get` with only the
shared read half of its `sync.RWMutex` while `Set`/`Add`/`Del` take the
exclusive lock, so `Get` is not granted the same exclusive access — the
uint64-keyed wrapper does use one exclusive mutex for every operation. -/
theorem claim_c10_lock_modes :
    strGetLockMode = LockMode.shared
    ∧ strSetLockMode = LockMode.exclusive
    ∧ strAddLockMode = LockMode.exclusive
    ∧ strDelLockMode = LockMode.exclusive
    ∧ ¬strGetLockMode = strSetLockMode
    ∧ u64GetLockMode = LockMode.exclusive
    ∧ u64SetLockMode = LockMode.exclusive
    ∧ u64DelLockMode = LockMode.exclusive := by
  exact ⟨rfl, rfl, rfl, rfl, by decide, rfl, rfl, rfl⟩

/-- C7: `Add` of a key already resident anywhere in the cache returns the
key-already-exists error and returns the state completely unchanged — no
value, expiry, list, sketch, doorkeeper or callback-log mutation. -/
theorem claim_c7_add_existing_key (c : Cfg) (t : T) (newIt : Item)
    (p : ListId × Item) (h : findOwner t newIt.key = some p) :
    TinyLFU.set c t newIt true = (some SetErr.keyAlreadyExists, t) := by
  unfold TinyLFU.set
  rw [h]
  rcases p with ⟨lid, it⟩
  simp

/-- Witness for C7 at a concrete one-item cache. -/
theorem claim_c7_add_existing_key_witness :
    findOwner ⟨0, [], [], [⟨1, some 10, none, false⟩], [], [], []⟩ 1
      = some (ListId.window, ⟨1, some 10, none, false⟩)
    ∧ TinyLFU.set ⟨100, 1, 1, 1⟩ ⟨0, [], [], [⟨1, some 10, none, false⟩], [], [], []⟩
        ⟨1, some 99, none, false⟩ true
      = (some SetErr.keyAlreadyExists,
         ⟨0, [], [], [⟨1, some 10, none, false⟩], [], [], []⟩) :=
  ⟨by decide,
   claim_c7_add_existing_key ⟨100, 1, 1, 1⟩ _ _ (ListId.window, ⟨1, some 10, none, false⟩)
     (by decide)⟩

/-- C3 counterexample: with configured capacity 1 the constructor floors
give a window of 1 plus a probation of 1 (sum 2 > 1), and two `Set` calls
of distinct keys leave 2 live Dictionary entries — the claimed bound of
`n = 1` is exceeded. -/
theorem claim_c3_counterexample :
    dictSize (runOps (New 1 16).1 (New 1 16).2
        [Op.setOp ⟨1, some 10, none, false⟩, Op.setOp ⟨2, some 20, none, false⟩]) = 2
    ∧ (New 1 16).1.lruCap + (New 1 16).1.probCap + (New 1 16).1.protCap = 2
    ∧ 1 < 2 := by
  exact ⟨by decide, by decide, by decide⟩

/-- C5 counterexample: `Set` of an already-present key replaces only the
stored value; at this concrete input the resident expiry `some 100` is
kept even though the new item carries expiry `some 999`, refuting
"the stored value and expiry are replaced". -/
theorem claim_c5_counterexample :
    (findK 1 ((TinyLFU.set ⟨100, 1, 1, 1⟩ ⟨0, [], [], [⟨1, some 10, some 100, true⟩], [], [], []⟩
        ⟨1, some 99, some 999, true⟩ false).2.window)).map Item.expireAt
      = some (some 100)
    ∧ ¬(some (100 : Int) = some (999 : Int)) := by
  exact ⟨by decide, by decide⟩

/-- C2 counterexample: in the uint64-keyed variant, `Del` of a key that is
resident does not detach the slot, does not delete the Dictionary entry
and fires no callback: on a window-resident key it panics on the failed
`*Item` assertion, and on a main-cache-resident key it merely nils the
value and backdates the expiry, leaving the entry in place. -/
theorem claim_c2_counterexample :
    uSet (uNew 10 100).1 (uNew 10 100).2 ⟨7, some 1, none⟩
      = Except.ok ⟨0, [], [], [(7, UVal.ppItem ⟨7, some 1, none⟩)], [], []⟩
    ∧ uDel ⟨0, [], [], [(7, UVal.ppItem ⟨7, some 1, none⟩)], [], []⟩ 7
      = Except.error UPanic.typeAssert
    ∧ uDel ⟨0, [], [], [], [⟨9, some 3, none⟩], []⟩ 9
      = Except.ok ⟨0, [], [], [], [⟨9, none, some 0⟩], []⟩ :=
  ⟨rfl, rfl, rfl⟩

/-- C4 counterexample: in the uint64-keyed variant, `Get` of a key whose
stored item has a non-zero past expiry does not behave as claimed: on a
window-resident key it panics on the failed `*Item` assertion instead of
returning not-found, and on a main-cache-resident key it reports
not-found but leaves the expired entry occupying its slot (here promoted
to protected) with no callback. -/
theorem claim_c4_counterexample :
    uGet (uNew 10 100).1 ⟨0, [], [], [(8, UVal.ppItem ⟨8, some 1, some 5⟩)], [], []⟩ 8 10
      = Except.error UPanic.typeAssert
    ∧ uGet ⟨100, 1, 1, 1⟩ ⟨0, [], [], [], [⟨9, some 3, some 5⟩], []⟩ 9 10
      = Except.ok ((none, false), ⟨1, [(9, 1)], [], [], [], [⟨9, some 3, some 5⟩]⟩)
    ∧ udictSize ⟨1, [(9, 1)], [], [], [], [⟨9, some 3, some 5⟩]⟩ = 1 :=
  ⟨rfl, rfl, rfl⟩

namespace KL

theorem eraseKy_of_not_mem {α : Type} {key : α → Nat} {k : Nat} {l : List α}
    (h : k ∉ l.map key) : eraseKy key k l = l := by
  induction l with
  | nil => rfl
  | cons b rest ih =>
    simp only [List.map_cons, List.mem_cons] at h
    have hb : ¬key b = k := fun hh => h (Or.inl hh.symm)
    rw [eraseKy_cons_neg hb, ih (fun hh => h (Or.inr hh))]

end KL

namespace TinyLFU

theorem findK_eq_none_iff {k : Nat} {l : List Item} :
    findK k l = none ↔ k ∉ keysOf l := KL.findKy_eq_none_iff

theorem findK_some_key {k : Nat} {l : List Item} {it : Item}
    (h : findK k l = some it) : it.key = k := KL.findKy_some_key h

theorem findK_mem_keys {k : Nat} {l : List Item} {it : Item}
    (h : findK k l = some it) : k ∈ keysOf l := by
  have h1 := KL.findKy_some_key h
  have h2 := KL.findKy_mem h
  exact List.mem_map.mpr ⟨it, h2, h1⟩

theorem eraseK_of_not_mem {k : Nat} {l : List Item} (h : k ∉ keysOf l) :
    eraseK k l = l := KL.eraseKy_of_not_mem h

theorem findOwner_window_inv {t : T} {k : Nat} {it : Item}
    (h : findOwner t k = some (ListId.window, it)) :
    findK k t.window = some it := by
  unfold findOwner at h
  split at h
  · rename_i a h1
    simp only [Option.some.injEq, Prod.mk.injEq, true_and] at h
    rw [h1, h]
  · split at h
    · simp at h
    · split at h
      · simp at h
      · simp at h

theorem findOwner_probation_inv {t : T} {k : Nat} {it : Item}
    (h : findOwner t k = some (ListId.probation, it)) :
    findK k t.window = none ∧ findK k t.probation = some it := by
  unfold findOwner at h
  split at h
  · simp at h
  · rename_i h1
    split at h
    · rename_i a h2
      simp only [Option.some.injEq, Prod.mk.injEq, true_and] at h
      rw [h2, h]
      exact ⟨h1, rfl⟩
    · split at h
      · simp at h
      · simp at h

theorem findOwner_prot_inv {t : T} {k : Nat} {it : Item}
    (h : findOwner t k = some (ListId.prot, it)) :
    findK k t.window = none ∧ findK k t.probation = none
    ∧ findK k t.prot = some it := by
  unfold findOwner at h
  split at h
  · simp at h
  · rename_i h1
    split at h
    · simp at h
    · rename_i h2
      split at h
      · rename_i a h3
        simp only [Option.some.injEq, Prod.mk.injEq, true_and] at h
        rw [h3, h]
        exact ⟨h1, h2, rfl⟩
      · simp at h

theorem findOwner_none_of (t : T) (k : Nat)
    (h1 : findK k t.window = none) (h2 : findK k t.probation = none)
    (h3 : findK k t.prot = none) : findOwner t k = none := by
  unfold findOwner
  rw [h1, h2, h3]

end TinyLFU

/-- C9: the reset counter is incremented by every `Get`; exactly when it
reaches the sample threshold, the frequency sketch and the doorkeeper are
reset in that same step (the sketch then holds only the current key's
fresh increment, every other estimate dropping to 0) and the counter
returns to 0; at any other count no reset happens — the counter advances
and the doorkeeper is untouched. -/
theorem claim_c9_periodic_reset (c : Cfg) (t : T) (k : Nat) (now : Int) :
    (Get c t k now).2.w = (if t.w + 1 = c.samples then 0 else t.w + 1)
    ∧ (Get c t k now).2.door = (if t.w + 1 = c.samples then [] else t.door)
    ∧ (Get c t k now).2.sketch
        = cmAdd (if t.w + 1 = c.samples then [] else t.sketch) k
    ∧ ((Get c t k now).2.w = 0 ↔ t.w + 1 = c.samples)
    ∧ (t.w + 1 = c.samples →
        ∀ g, ¬g = k → cmEstimate (Get c t k now).2.sketch g = 0) := by
  have h := get_state_proj c t k now
  refine ⟨h.1, h.2.1, h.2.2, ?_, ?_⟩
  · rw [h.1]
    by_cases hw : t.w + 1 = c.samples
    · simp [hw]
    · simp [hw]
  · intro hw g hg
    rw [h.2.2, if_pos hw]
    exact cmEstimate_fresh k g (fun hh => hg hh.symm)

/-- Witness for C9: with threshold 5 and counter 4, one `Get` resets the
counter to 0, clears the doorkeeper and drops a previously tracked
estimate to 0. -/
theorem claim_c9_periodic_reset_witness :
    (Get ⟨5, 1, 1, 1⟩ ⟨4, [(3, 7)], [3], [], [], [], []⟩ 9 0).2.w = 0
    ∧ (Get ⟨5, 1, 1, 1⟩ ⟨4, [(3, 7)], [3], [], [], [], []⟩ 9 0).2.door = []
    ∧ cmEstimate (Get ⟨5, 1, 1, 1⟩ ⟨4, [(3, 7)], [3], [], [], [], []⟩ 9 0).2.sketch 3 = 0 := by
  have h := claim_c9_periodic_reset ⟨5, 1, 1, 1⟩ ⟨4, [(3, 7)], [3], [], [], [], []⟩ 9 0
  exact ⟨by rw [h.1]; decide, by rw [h.2.1]; decide,
         h.2.2.2.2 (by decide) 3 (by decide)⟩

namespace TinyLFU

theorem delKey_spec (t : T) (k : Nat) (lid : ListId) (it : Item)
    (hf : findOwner t k = some (lid, it)) (hok : KeysOk t) :
    findOwner (delKey t k) k = none
    ∧ (delKey t k).window = eraseK k t.window
    ∧ (delKey t k).probation = eraseK k t.probation
    ∧ (delKey t k).prot = eraseK k t.prot
    ∧ (delKey t k).evLog = t.evLog ++ (if it.hasCb then [it.key] else [])
    ∧ dictSize (delKey t k) + 1 = dictSize t := by
  obtain ⟨hw, hp, hq, hwp, hwq, hpq⟩ := hok
  cases lid with
  | window =>
    have h1 : findK k t.window = some it := findOwner_window_inv hf
    have hkmem : k ∈ keysOf t.window := findK_mem_keys h1
    have hDel : delKey t k = onEvict { t with window := eraseK k t.window } it := by
      unfold delKey
      rw [hf]
    have hwin : (delKey t k).window = eraseK k t.window := by
      rw [hDel]
      exact (onEvict_proj _ _).2.2.2.1
    have hprob : (delKey t k).probation = t.probation := by
      rw [hDel]
      exact (onEvict_proj _ _).2.2.2.2.1
    have hprot : (delKey t k).prot = t.prot := by
      rw [hDel]
      exact (onEvict_proj _ _).2.2.2.2.2
    have eprob : eraseK k t.probation = t.probation :=
      eraseK_of_not_mem (hwp k hkmem)
    have eprot : eraseK k t.prot = t.prot :=
      eraseK_of_not_mem (hwq k hkmem)
    refine ⟨?_, hwin, by rw [hprob, eprob], by rw [hprot, eprot], ?_, ?_⟩
    · refine findOwner_none_of _ _ ?_ ?_ ?_
      · rw [hwin]
        exact KL.findKy_eraseKy_self hw
      · rw [hprob]
        exact findK_eq_none_iff.mpr (hwp k hkmem)
      · rw [hprot]
        exact findK_eq_none_iff.mpr (hwq k hkmem)
    · rw [hDel]
      exact onEvict_evLog _ _
    · have hlen : (eraseK k t.window).length + 1 = t.window.length :=
        KL.length_eraseKy_of_find h1
      unfold dictSize
      rw [hwin, hprob, hprot]
      omega
  | probation =>
    obtain ⟨h0, h1⟩ := findOwner_probation_inv hf
    have hkmem : k ∈ keysOf t.probation := findK_mem_keys h1
    have hDel : delKey t k = onEvict
        { t with probation := eraseK k t.probation, prot := eraseK k t.prot } it := by
      unfold delKey
      rw [hf]
    have hwin : (delKey t k).window = t.window := by
      rw [hDel]
      exact (onEvict_proj _ _).2.2.2.1
    have hprob : (delKey t k).probation = eraseK k t.probation := by
      rw [hDel]
      exact (onEvict_proj _ _).2.2.2.2.1
    have hprot : (delKey t k).prot = eraseK k t.prot := by
      rw [hDel]
      exact (onEvict_proj _ _).2.2.2.2.2
    have ewin : eraseK k t.window = t.window :=
      eraseK_of_not_mem (findK_eq_none_iff.mp h0)
    refine ⟨?_, by rw [hwin, ewin], hprob, hprot, ?_, ?_⟩
    · refine findOwner_none_of _ _ ?_ ?_ ?_
      · rw [hwin]
        exact h0
      · rw [hprob]
        exact KL.findKy_eraseKy_self hp
      · rw [hprot]
        rw [eraseK_of_not_mem (hpq k hkmem)]
        exact findK_eq_none_iff.mpr (hpq k hkmem)
    · rw [hDel]
      exact onEvict_evLog _ _
    · have hlen : (eraseK k t.probation).length + 1 = t.probation.length :=
        KL.length_eraseKy_of_find h1
      have eprot : eraseK k t.prot = t.prot := eraseK_of_not_mem (hpq k hkmem)
      unfold dictSize
      rw [hwin, hprob, hprot, eprot]
      omega
  | prot =>
    obtain ⟨h0, h1, h2⟩ := findOwner_prot_inv hf
    have hkmem : k ∈ keysOf t.prot := findK_mem_keys h2
    have hDel : delKey t k = onEvict
        { t with probation := eraseK k t.probation, prot := eraseK k t.prot } it := by
      unfold delKey
      rw [hf]
    have hwin : (delKey t k).window = t.window := by
      rw [hDel]
      exact (onEvict_proj _ _).2.2.2.1
    have hprob : (delKey t k).probation = eraseK k t.probation := by
      rw [hDel]
      exact (onEvict_proj _ _).2.2.2.2.1
    have hprot : (delKey t k).prot = eraseK k t.prot := by
      rw [hDel]
      exact (onEvict_proj _ _).2.2.2.2.2
    have ewin : eraseK k t.window = t.window :=
      eraseK_of_not_mem (findK_eq_none_iff.mp h0)
    refine ⟨?_, by rw [hwin, ewin], hprob, hprot, ?_, ?_⟩
    · refine findOwner_none_of _ _ ?_ ?_ ?_
      · rw [hwin]
        exact h0
      · rw [hprob]
        rw [eraseK_of_not_mem (findK_eq_none_iff.mp h1)]
        exact h1
      · rw [hprot]
        exact KL.findKy_eraseKy_self hq
    · rw [hDel]
      exact onEvict_evLog _ _
    · have hlen : (eraseK k t.prot).length + 1 = t.prot.length :=
        KL.length_eraseKy_of_find h2
      have eprob : eraseK k t.probation = t.probation :=
        eraseK_of_not_mem (findK_eq_none_iff.mp h1)
      unfold dictSize
      rw [hwin, hprob, hprot, eprob]
      omega

end TinyLFU

/-- C2 (amended to the string-keyed variant, whose `Del` the claim
describes; the uint64-keyed `Del` instead leaves the entry in place, see
the counterexample): for a key resident in a well-formed cache, `Del`
detaches the slot from whichever list owns it, removes the Dictionary
entry — the key is no longer reachable and the slot count drops by one —
and invokes the item's eviction callback exactly once. -/
theorem claim_c2_delete (t : T) (k : Nat) (lid : ListId) (it : Item)
    (hf : findOwner t k = some (lid, it)) (hok : KeysOk t) :
    findOwner (Del t k) k = none
    ∧ (Del t k).window = eraseK k t.window
    ∧ (Del t k).probation = eraseK k t.probation
    ∧ (Del t k).prot = eraseK k t.prot
    ∧ (Del t k).evLog = t.evLog ++ (if it.hasCb then [it.key] else [])
    ∧ dictSize (Del t k) + 1 = dictSize t :=
  delKey_spec t k lid it hf hok

/-- Witness for C2 at a concrete cache holding one window item with a
callback. -/
theorem claim_c2_delete_witness :
    (findOwner ⟨0, [], [], [⟨4, some 1, none, true⟩], [], [], []⟩ 4
        = some (ListId.window, ⟨4, some 1, none, true⟩)
      ∧ KeysOk ⟨0, [], [], [⟨4, some 1, none, true⟩], [], [], []⟩)
    ∧ (findOwner (Del ⟨0, [], [], [⟨4, some 1, none, true⟩], [], [], []⟩ 4) 4 = none
       ∧ (Del ⟨0, [], [], [⟨4, some 1, none, true⟩], [], [], []⟩ 4).window
           = eraseK 4 [⟨4, some 1, none, true⟩]
       ∧ (Del ⟨0, [], [], [⟨4, some 1, none, true⟩], [], [], []⟩ 4).probation = eraseK 4 []
       ∧ (Del ⟨0, [], [], [⟨4, some 1, none, true⟩], [], [], []⟩ 4).prot = eraseK 4 []
       ∧ (Del ⟨0, [], [], [⟨4, some 1, none, true⟩], [], [], []⟩ 4).evLog
           = [] ++ (if (true : Bool) then [4] else [])
       ∧ dictSize (Del ⟨0, [], [], [⟨4, some 1, none, true⟩], [], [], []⟩ 4) + 1
           = dictSize ⟨0, [], [], [⟨4, some 1, none, true⟩], [], [], []⟩) :=
  ⟨⟨by decide, by decide⟩,
   claim_c2_delete ⟨0, [], [], [⟨4, some 1, none, true⟩], [], [], []⟩ 4
     ListId.window ⟨4, some 1, none, true⟩ (by decide) (by decide)⟩

namespace TinyLFU

theorem setNew_full (c : Cfg) (t : T) (newIt old : Item)
    (hfull : ¬t.window.length < c.lruCap)
    (hlast : t.window.getLast? = some old) :
    setNew c t newIt
      = setOnEvicted c { t with window := newIt :: t.window.dropLast } old := by
  unfold setNew lruAdd
  rw [if_neg hfull, hlast]

theorem setOnEvicted_cases (c : Cfg) (t1 : T) (old v : Item)
    (hvic : slruVictim c t1 = some v) (hdoor : old.key ∈ t1.door) :
    (cmEstimate t1.sketch v.key < cmEstimate t1.sketch old.key →
       setOnEvicted c t1 old = slruAdd c t1 old)
    ∧ (¬cmEstimate t1.sketch v.key < cmEstimate t1.sketch old.key →
       setOnEvicted c t1 old = onEvict t1 old) := by
  have hrw : setOnEvicted c t1 old
      = (if cmEstimate t1.sketch v.key < cmEstimate t1.sketch old.key
         then slruAdd c t1 old else onEvict t1 old) := by
    unfold setOnEvicted
    rw [hvic]
    unfold dkAllow
    rw [if_pos hdoor]
    simp
  constructor <;> intro hc <;> rw [hrw]
  · rw [if_pos hc]
  · rw [if_neg hc]

theorem setOnEvicted_denied (c : Cfg) (t1 : T) (old v : Item)
    (hvic : slruVictim c t1 = some v) (hdoor : old.key ∉ t1.door) :
    setOnEvicted c t1 old = onEvict { t1 with door := old.key :: t1.door } old := by
  unfold setOnEvicted
  rw [hvic]
  unfold dkAllow
  rw [if_neg hdoor]
  simp

theorem mem_slruAdd_head (c : Cfg) (t1 : T) (it : Item) :
    it.key ∈ keysOf (slruAdd c t1 it).probation := by
  unfold slruAdd
  split
  · simp [keysOf]
  · split
    · simp [keysOf]
    · rw [(onEvict_proj _ _).2.2.2.2.1]
      simp [keysOf]

end TinyLFU

/-- C1: in the string-keyed `Set` eviction path — a new key evicts the
window LRU item, a main-cache victim exists and the evictee passes the
doorkeeper — the evictee (challenger) enters probation exactly when its
estimated frequency is strictly greater than the victim's; on equal
estimates it is rejected: probation and protected are untouched (the
victim stays) and the challenger's eviction callback fires. -/
theorem claim_c1_tie_break (c : Cfg) (t : T) (newIt old v : Item)
    (hnew : findOwner t newIt.key = none)
    (hfull : ¬t.window.length < c.lruCap)
    (hlast : t.window.getLast? = some old)
    (hvic : slruVictim c t = some v)
    (hdoor : old.key ∈ t.door)
    (hnotp : old.key ∉ keysOf t.probation) :
    ((old.key ∈ keysOf (Set c t newIt).probation)
        ↔ cmEstimate t.sketch v.key < cmEstimate t.sketch old.key)
    ∧ (cmEstimate t.sketch old.key = cmEstimate t.sketch v.key →
        (Set c t newIt).probation = t.probation
        ∧ (Set c t newIt).prot = t.prot
        ∧ (Set c t newIt).evLog = t.evLog ++ (if old.hasCb then [old.key] else [])) := by
  have hstep : Set c t newIt
      = setOnEvicted c { t with window := newIt :: t.window.dropLast } old := by
    unfold TinyLFU.Set TinyLFU.set
    rw [hnew]
    exact setNew_full c t newIt old hfull hlast
  have hcases := setOnEvicted_cases c { t with window := newIt :: t.window.dropLast }
    old v hvic hdoor
  by_cases hcmp : cmEstimate t.sketch v.key < cmEstimate t.sketch old.key
  · have hadm : Set c t newIt
        = slruAdd c { t with window := newIt :: t.window.dropLast } old := by
      rw [hstep]
      exact hcases.1 hcmp
    constructor
    · rw [hadm]
      exact iff_of_true (mem_slruAdd_head _ _ _) hcmp
    · intro htie
      exact absurd hcmp (by rw [htie]; omega)
  · have hrej : Set c t newIt
        = onEvict { t with window := newIt :: t.window.dropLast } old := by
      rw [hstep]
      exact hcases.2 hcmp
    have hpp : (Set c t newIt).probation = t.probation := by
      rw [hrej]
      exact (onEvict_proj _ _).2.2.2.2.1
    constructor
    · rw [hpp]
      exact iff_of_false hnotp hcmp
    · intro _
      refine ⟨hpp, ?_, ?_⟩
      · rw [hrej]
        exact (onEvict_proj _ _).2.2.2.2.2
      · rw [hrej]
        exact onEvict_evLog _ _

/-- Witness for C1 at a concrete tied state: challenger and victim both
estimate 3, so the challenger is rejected, probation keeps the victim and
the challenger's callback fires. -/
theorem claim_c1_tie_break_witness :
    (TinyLFU.Set ⟨100, 1, 1, 1⟩
        ⟨0, [(1, 3), (2, 3)], [1], [⟨1, some 0, none, true⟩],
         [⟨2, some 0, none, false⟩], [⟨3, some 0, none, false⟩], []⟩
        ⟨4, some 4, none, false⟩).probation = [⟨2, some 0, none, false⟩]
    ∧ (Set ⟨100, 1, 1, 1⟩
        ⟨0, [(1, 3), (2, 3)], [1], [⟨1, some 0, none, true⟩],
         [⟨2, some 0, none, false⟩], [⟨3, some 0, none, false⟩], []⟩
        ⟨4, some 4, none, false⟩).evLog = [1] := by
  have h := claim_c1_tie_break ⟨100, 1, 1, 1⟩
    ⟨0, [(1, 3), (2, 3)], [1], [⟨1, some 0, none, true⟩],
     [⟨2, some 0, none, false⟩], [⟨3, some 0, none, false⟩], []⟩
    ⟨4, some 4, none, false⟩ ⟨1, some 0, none, true⟩ ⟨2, some 0, none, false⟩
    (by decide) (by decide) (by decide) (by decide) (by decide) (by decide)
  have h2 := h.2 (by decide)
  refine ⟨h2.1, ?_⟩
  rw [h2.2.2]
  decide

/-- C8: in the string-keyed `Set` eviction path, when the window evictee
gets a negative doorkeeper signal while a main-cache victim exists, the
evictee is discarded with its eviction callback and without any effect of
a frequency comparison: probation, protected and the sketch are all
unchanged, and the doorkeeper records the evictee's fingerprint. -/
theorem claim_c8_doorkeeper_reject (c : Cfg) (t : T) (newIt old v : Item)
    (hnew : findOwner t newIt.key = none)
    (hfull : ¬t.window.length < c.lruCap)
    (hlast : t.window.getLast? = some old)
    (hvic : slruVictim c t = some v)
    (hdoor : old.key ∉ t.door)
    (hcb : old.hasCb = true) :
    (Set c t newIt).probation = t.probation
    ∧ (Set c t newIt).prot = t.prot
    ∧ (Set c t newIt).sketch = t.sketch
    ∧ (Set c t newIt).door = old.key :: t.door
    ∧ (Set c t newIt).evLog = t.evLog ++ [old.key] := by
  have hstep : Set c t newIt
      = onEvict { { t with window := newIt :: t.window.dropLast }
                  with door := old.key :: t.door } old := by
    unfold TinyLFU.Set TinyLFU.set
    rw [hnew]
    rw [setNew_full c t newIt old hfull hlast]
    exact setOnEvicted_denied c _ old v hvic hdoor
  rw [hstep]
  refine ⟨(onEvict_proj _ _).2.2.2.2.1, (onEvict_proj _ _).2.2.2.2.2,
          (onEvict_proj _ _).2.1, (onEvict_proj _ _).2.2.1, ?_⟩
  rw [onEvict_evLog, hcb]
  simp

/-- Witness for C8: a first-seen evictee with a callback is discarded
without comparison; the victim stays and the doorkeeper records the
fingerprint. -/
theorem claim_c8_doorkeeper_reject_witness :
    (TinyLFU.Set ⟨100, 1, 1, 1⟩
        ⟨0, [(1, 9), (2, 3)], [], [⟨1, some 0, none, true⟩],
         [⟨2, some 0, none, false⟩], [⟨3, some 0, none, false⟩], []⟩
        ⟨4, some 4, none, false⟩).probation = [⟨2, some 0, none, false⟩]
    ∧ (Set ⟨100, 1, 1, 1⟩
        ⟨0, [(1, 9), (2, 3)], [], [⟨1, some 0, none, true⟩],
         [⟨2, some 0, none, false⟩], [⟨3, some 0, none, false⟩], []⟩
        ⟨4, some 4, none, false⟩).door = [1]
    ∧ (Set ⟨100, 1, 1, 1⟩
        ⟨0, [(1, 9), (2, 3)], [], [⟨1, some 0, none, true⟩],
         [⟨2, some 0, none, false⟩], [⟨3, some 0, none, false⟩], []⟩
        ⟨4, some 4, none, false⟩).evLog = [1] := by
  have h := claim_c8_doorkeeper_reject ⟨100, 1, 1, 1⟩
    ⟨0, [(1, 9), (2, 3)], [], [⟨1, some 0, none, true⟩],
     [⟨2, some 0, none, false⟩], [⟨3, some 0, none, false⟩], []⟩
    ⟨4, some 4, none, false⟩ ⟨1, some 0, none, true⟩ ⟨2, some 0, none, false⟩
    (by decide) (by decide) (by decide) (by decide) (by decide) (by decide)
  exact ⟨h.1, h.2.2.2.1, by rw [h.2.2.2.2]; decide⟩

namespace TinyLFU

theorem findOwner_eq_of_lists {t2 t : T} (hW : t2.window = t.window)
    (hP : t2.probation = t.probation) (hQ : t2.prot = t.prot) (k : Nat) :
    findOwner t2 k = findOwner t k := by
  unfold findOwner
  rw [hW, hP, hQ]

theorem keysOk_of_lists {t2 t : T} (hW : t2.window = t.window)
    (hP : t2.probation = t.probation) (hQ : t2.prot = t.prot)
    (h : KeysOk t) : KeysOk t2 := by
  unfold KeysOk at h ⊢
  rw [hW, hP, hQ]
  exact h

end TinyLFU

/-- C4 (amended to the string-keyed variant, whose `Get` the claim
describes; the uint64-keyed `Get` does not reap expired entries, see the
counterexample): a `Get` of a key whose item carries a non-zero past
expiry reports not-found, synchronously removes the entry from its list
and the Dictionary (the slot count drops by one), fires its eviction
callback exactly once — and the frequency estimator is still incremented
for the key (stated away from the reset boundary and below counter
saturation). -/
theorem claim_c4_expired_get (c : Cfg) (t : T) (k : Nat) (now e : Int)
    (lid : ListId) (it : Item)
    (hf : findOwner t k = some (lid, it))
    (hexp : it.expireAt = some e) (hlt : e < now)
    (hok : KeysOk t)
    (hw : ¬t.w + 1 = c.samples)
    (hsat : cmEstimate t.sketch k < 15) :
    (Get c t k now).1 = (none, false)
    ∧ findOwner (Get c t k now).2 k = none
    ∧ (Get c t k now).2.evLog = t.evLog ++ (if it.hasCb then [it.key] else [])
    ∧ dictSize (Get c t k now).2 + 1 = dictSize t
    ∧ cmEstimate (Get c t k now).2.sketch k = cmEstimate t.sketch k + 1 := by
  have hGet : Get c t k now
      = getLookup c { t with w := t.w + 1, sketch := cmAdd t.sketch k } k now := by
    unfold Get
    rw [if_neg hw]
  have hf2 : findOwner { t with w := t.w + 1, sketch := cmAdd t.sketch k } k
      = some (lid, it) := by
    rw [findOwner_eq_of_lists rfl rfl rfl k]
    exact hf
  have hexpb : it.expired now = true := by
    unfold Item.expired
    rw [hexp]
    simp [hlt]
  have hstep : Get c t k now
      = ((none, false), delKey { t with w := t.w + 1, sketch := cmAdd t.sketch k } k) := by
    rw [hGet]
    unfold getLookup
    rw [hf2]
    unfold getFound
    exact if_pos hexpb
  have hds := delKey_spec { t with w := t.w + 1, sketch := cmAdd t.sketch k } k lid it
    hf2 (keysOk_of_lists rfl rfl rfl hok)
  refine ⟨by rw [hstep], ?_, ?_, ?_, ?_⟩
  · rw [hstep]
    exact hds.1
  · rw [hstep]
    exact hds.2.2.2.2.1
  · rw [hstep]
    exact hds.2.2.2.2.2
  · rw [hstep]
    have hsk : (delKey { t with w := t.w + 1, sketch := cmAdd t.sketch k } k).sketch
        = cmAdd t.sketch k := (delKey_proj _ _).2.1
    rw [show ((((none, false) : Option Nat × Bool),
        delKey { t with w := t.w + 1, sketch := cmAdd t.sketch k } k)).2
        = delKey { t with w := t.w + 1, sketch := cmAdd t.sketch k } k from rfl]
    rw [hsk, cmEstimate_cmAdd_self]
    omega

/-- Witness for C4: a window item expired at 5 queried at 10 is reaped,
its callback fires, and its estimate rises from 0 to 1. -/
theorem claim_c4_expired_get_witness :
    (Get ⟨100, 1, 1, 1⟩ ⟨0, [], [], [⟨4, some 1, some 5, true⟩], [], [], []⟩ 4 10).1
      = (none, false)
    ∧ findOwner
        (Get ⟨100, 1, 1, 1⟩ ⟨0, [], [], [⟨4, some 1, some 5, true⟩], [], [], []⟩ 4 10).2 4
      = none
    ∧ (Get ⟨100, 1, 1, 1⟩ ⟨0, [], [], [⟨4, some 1, some 5, true⟩], [], [], []⟩ 4 10).2.evLog
      = [4]
    ∧ dictSize
        (Get ⟨100, 1, 1, 1⟩ ⟨0, [], [], [⟨4, some 1, some 5, true⟩], [], [], []⟩ 4 10).2 + 1
      = dictSize ⟨0, [], [], [⟨4, some 1, some 5, true⟩], [], [], []⟩
    ∧ cmEstimate
        (Get ⟨100, 1, 1, 1⟩ ⟨0, [], [], [⟨4, some 1, some 5, true⟩], [], [], []⟩ 4 10).2.sketch 4
      = 1 := by
  have h := claim_c4_expired_get ⟨100, 1, 1, 1⟩
    ⟨0, [], [], [⟨4, some 1, some 5, true⟩], [], [], []⟩ 4 10 5
    ListId.window ⟨4, some 1, some 5, true⟩
    (by decide) (by decide) (by decide) (by decide) (by decide) (by decide)
  refine ⟨h.1, h.2.1, ?_, h.2.2.2.1, ?_⟩
  · rw [h.2.2.1]
    decide
  · rw [h.2.2.2.2]
    decide

namespace KL

theorem replKy_of_not_mem {α : Type} {key : α → Nat} {k : Nat} {f : α → α}
    {l : List α} (h : k ∉ l.map key) : replKy key k f l = l := by
  induction l with
  | nil => rfl
  | cons b rest ih =>
    simp only [List.map_cons, List.mem_cons] at h
    have hb : ¬key b = k := fun hh => h (Or.inl hh.symm)
    rw [replKy_cons, if_neg hb, ih (fun hh => h (Or.inr hh))]

end KL

namespace TinyLFU

theorem updValue_keys (k : Nat) (v : Option Nat) (l : List Item) :
    keysOf (updValue k v l) = keysOf l := by
  unfold updValue keysOf
  refine KL.keys_replKy ?_ l
  intro c
  rfl

theorem updValue_of_not_mem {k : Nat} {v : Option Nat} {l : List Item}
    (h : k ∉ keysOf l) : updValue k v l = l :=
  KL.replKy_of_not_mem h

theorem findK_updValue_self {k : Nat} {v : Option Nat} {l : List Item} {it : Item}
    (h : findK k l = some it) :
    findK k (updValue k v l) = some { it with value := v } := by
  unfold updValue findK
  refine KL.findKy_replKy_self h ?_
  intro c
  rfl

theorem findK_updValue_none {k : Nat} {v : Option Nat} {l : List Item}
    (h : findK k l = none) : findK k (updValue k v l) = none := by
  unfold updValue findK
  refine KL.findKy_replKy_none h ?_
  intro c
  rfl

theorem length_moveToFrontK (k : Nat) (l : List Item) :
    (moveToFrontK k l).length = l.length := KL.length_moveKy k l

theorem length_updValue (k : Nat) (v : Option Nat) (l : List Item) :
    (updValue k v l).length = l.length := by
  unfold updValue
  exact KL.length_replKy k _ l

theorem findOwner_window_of {t : T} {k : Nat} {it : Item}
    (h : findK k t.window = some it) : findOwner t k = some (.window, it) := by
  unfold findOwner
  rw [h]

theorem findOwner_probation_of {t : T} {k : Nat} {it : Item}
    (h0 : findK k t.window = none) (h1 : findK k t.probation = some it) :
    findOwner t k = some (.probation, it) := by
  unfold findOwner
  rw [h0, h1]

theorem findOwner_prot_of {t : T} {k : Nat} {it : Item}
    (h0 : findK k t.window = none) (h1 : findK k t.probation = none)
    (h2 : findK k t.prot = some it) :
    findOwner t k = some (.prot, it) := by
  unfold findOwner
  rw [h0, h1, h2]

theorem ownerMRU_window_of {t : T} {k : Nat} {it : Item}
    (h : findOwner t k = some (.window, it))
    (hh : (keysOf t.window).head? = some k) : ownerMRU t k = true := by
  unfold ownerMRU
  rw [h, hh]
  simp

theorem ownerMRU_probation_of {t : T} {k : Nat} {it : Item}
    (h : findOwner t k = some (.probation, it))
    (hh : (keysOf t.probation).head? = some k) : ownerMRU t k = true := by
  unfold ownerMRU
  rw [h, hh]
  simp

theorem ownerMRU_prot_of {t : T} {k : Nat} {it : Item}
    (h : findOwner t k = some (.prot, it))
    (hh : (keysOf t.prot).head? = some k) : ownerMRU t k = true := by
  unfold ownerMRU
  rw [h, hh]
  simp

end TinyLFU

/-- C5 (amended: the in-place update replaces only the stored value — the
resident expiry is left unchanged, contrary to the claim's "value and
expiry are replaced", see the counterexample — and is stated for the
string-keyed variant, whose `set` the claim describes): `Set` of a key
already resident in a well-formed cache keeps the resident item with only
its value overwritten, increments the key's frequency estimate (below
saturation), moves the slot to the MRU end of its (possibly new) owning
list, fires no eviction callback and leaves the slot count unchanged. -/
theorem claim_c5_update (c : Cfg) (t : T) (newIt : Item) (lid : ListId) (old : Item)
    (hf : findOwner t newIt.key = some (lid, old))
    (hok : KeysOk t)
    (hsat : cmEstimate t.sketch newIt.key < 15) :
    (findOwner (TinyLFU.Set c t newIt) newIt.key).map Prod.snd
      = some { old with value := newIt.value }
    ∧ (TinyLFU.Set c t newIt).evLog = t.evLog
    ∧ dictSize (TinyLFU.Set c t newIt) = dictSize t
    ∧ cmEstimate (TinyLFU.Set c t newIt).sketch newIt.key
        = cmEstimate t.sketch newIt.key + 1
    ∧ ownerMRU (TinyLFU.Set c t newIt) newIt.key = true := by
  obtain ⟨hw, hp, hq, hwp, hwq, hpq⟩ := hok
  have hset : TinyLFU.Set c t newIt = setExisting c t newIt lid := by
    unfold TinyLFU.Set TinyLFU.set
    rw [hf]
    rfl
  cases lid with
  | window =>
    have h1 : findK newIt.key t.window = some old := findOwner_window_inv hf
    have hkmem : newIt.key ∈ keysOf t.window := findK_mem_keys h1
    have hnp : updValue newIt.key newIt.value t.probation = t.probation :=
      updValue_of_not_mem (hwp _ hkmem)
    have hnq : updValue newIt.key newIt.value t.prot = t.prot :=
      updValue_of_not_mem (hwq _ hkmem)
    have hW : findK newIt.key (updValue newIt.key newIt.value t.window)
        = some { old with value := newIt.value } := findK_updValue_self h1
    have hS : TinyLFU.Set c t newIt = { t with
        window := moveToFrontK newIt.key (updValue newIt.key newIt.value t.window),
        sketch := cmAdd t.sketch newIt.key } := by
      rw [hset]
      unfold setExisting
      rw [hnp, hnq]
    have hfind : findK newIt.key
        (moveToFrontK newIt.key (updValue newIt.key newIt.value t.window))
        = some { old with value := newIt.value } := KL.findKy_moveKy_self hW
    have hfo : findOwner (TinyLFU.Set c t newIt) newIt.key
        = some (.window, { old with value := newIt.value }) := by
      rw [hS]
      exact findOwner_window_of hfind
    refine ⟨by rw [hfo]; rfl, by rw [hS], ?_, ?_, ?_⟩
    · have hds : dictSize (TinyLFU.Set c t newIt)
          = (moveToFrontK newIt.key (updValue newIt.key newIt.value t.window)).length
            + t.probation.length + t.prot.length := by
        rw [hS]
        rfl
      rw [hds, length_moveToFrontK, length_updValue]
      rfl
    · have hsk : (TinyLFU.Set c t newIt).sketch = cmAdd t.sketch newIt.key := by
        rw [hS]
      rw [hsk, cmEstimate_cmAdd_self]
      omega
    · refine ownerMRU_window_of hfo ?_
      have hwin : (TinyLFU.Set c t newIt).window
          = moveToFrontK newIt.key (updValue newIt.key newIt.value t.window) := by
        rw [hS]
      rw [hwin]
      unfold moveToFrontK
      rw [KL.moveKy_eq_of_find hW]
      simp [keysOf, findK_some_key h1]
  | probation =>
    obtain ⟨h0, h1⟩ := findOwner_probation_inv hf
    have hkmem : newIt.key ∈ keysOf t.probation := findK_mem_keys h1
    have hkey : old.key = newIt.key := findK_some_key h1
    have hnw : updValue newIt.key newIt.value t.window = t.window :=
      updValue_of_not_mem (findK_eq_none_iff.mp h0)
    have hqnone : findK newIt.key t.prot = none :=
      findK_eq_none_iff.mpr (hpq _ hkmem)
    have hnq : updValue newIt.key newIt.value t.prot = t.prot :=
      updValue_of_not_mem (hpq _ hkmem)
    have hP : findK newIt.key (updValue newIt.key newIt.value t.probation)
        = some { old with value := newIt.value } := findK_updValue_self h1
    have hplen : (updValue newIt.key newIt.value t.probation).length
        = t.probation.length := length_updValue _ _ _
    have herlen : (eraseK newIt.key (updValue newIt.key newIt.value t.probation)).length + 1
        = (updValue newIt.key newIt.value t.probation).length :=
      KL.length_eraseKy_of_find hP
    have hpnodup : ((updValue newIt.key newIt.value t.probation).map Item.key).Nodup := by
      have hk := updValue_keys newIt.key newIt.value t.probation
      unfold keysOf at hk
      rw [hk]
      exact hp
    have hS : TinyLFU.Set c t newIt = slruGet c { t with
        probation := updValue newIt.key newIt.value t.probation,
        sketch := cmAdd t.sketch newIt.key } newIt.key := by
      rw [hset]
      unfold setExisting
      rw [hnw, hnq]
    by_cases hlen : t.prot.length < c.protCap
    · have hS2 : TinyLFU.Set c t newIt = { t with
          probation := eraseK newIt.key (updValue newIt.key newIt.value t.probation),
          prot := { old with value := newIt.value } :: t.prot,
          sketch := cmAdd t.sketch newIt.key } := by
        rw [hS]
        unfold slruGet
        simp only [hqnone, hP]
        rw [if_pos hlen]
      have hfo : findOwner (TinyLFU.Set c t newIt) newIt.key
          = some (.prot, { old with value := newIt.value }) := by
        rw [hS2]
        refine findOwner_prot_of h0 ?_ ?_
        · exact KL.findKy_eraseKy_self hpnodup
        · have hcons : KL.findKy Item.key newIt.key
              ({ old with value := newIt.value } :: t.prot)
              = some { old with value := newIt.value } := by
            refine KL.findKy_cons_pos ?_ _
            exact hkey
          exact hcons
      refine ⟨by rw [hfo]; rfl, by rw [hS2], ?_, ?_, ?_⟩
      · have hds : dictSize (TinyLFU.Set c t newIt)
            = t.window.length
              + (eraseK newIt.key (updValue newIt.key newIt.value t.probation)).length
              + ({ old with value := newIt.value } :: t.prot).length := by
          rw [hS2]
          rfl
        rw [hds]
        simp only [List.length_cons]
        unfold dictSize
        omega
      · have hsk : (TinyLFU.Set c t newIt).sketch = cmAdd t.sketch newIt.key := by
          rw [hS2]
        rw [hsk, cmEstimate_cmAdd_self]
        omega
      · refine ownerMRU_prot_of hfo ?_
        have hpr : (TinyLFU.Set c t newIt).prot
            = { old with value := newIt.value } :: t.prot := by
          rw [hS2]
        rw [hpr]
        simp [keysOf, hkey]
    · rcases hgl : t.prot.getLast? with _ | demoted
      · have hS2 : TinyLFU.Set c t newIt = { t with
            probation := moveToFrontK newIt.key
              (updValue newIt.key newIt.value t.probation),
            sketch := cmAdd t.sketch newIt.key } := by
          rw [hS]
          unfold slruGet
          simp only [hqnone, hP]
          rw [if_neg hlen]
          simp only [hgl]
        have hfind : findK newIt.key
            (moveToFrontK newIt.key (updValue newIt.key newIt.value t.probation))
            = some { old with value := newIt.value } := KL.findKy_moveKy_self hP
        have hfo : findOwner (TinyLFU.Set c t newIt) newIt.key
            = some (.probation, { old with value := newIt.value }) := by
          rw [hS2]
          exact findOwner_probation_of h0 hfind
        refine ⟨by rw [hfo]; rfl, by rw [hS2], ?_, ?_, ?_⟩
        · have hds : dictSize (TinyLFU.Set c t newIt)
              = t.window.length
                + (moveToFrontK newIt.key
                    (updValue newIt.key newIt.value t.probation)).length
                + t.prot.length := by
            rw [hS2]
            rfl
          rw [hds, length_moveToFrontK, length_updValue]
          rfl
        · have hsk : (TinyLFU.Set c t newIt).sketch = cmAdd t.sketch newIt.key := by
            rw [hS2]
          rw [hsk, cmEstimate_cmAdd_self]
          omega
        · refine ownerMRU_probation_of hfo ?_
          have hpr : (TinyLFU.Set c t newIt).probation
              = moveToFrontK newIt.key (updValue newIt.key newIt.value t.probation) := by
            rw [hS2]
          rw [hpr]
          unfold moveToFrontK
          rw [KL.moveKy_eq_of_find hP]
          simp [keysOf, hkey]
      · have hdmem : demoted.key ∈ keysOf t.prot :=
          List.mem_map.mpr ⟨demoted, KL.mem_of_getLast? hgl, rfl⟩
        have hdk : ¬demoted.key = newIt.key := by
          intro hh
          exact hpq _ hkmem (hh ▸ hdmem)
        have hprspec : t.prot = t.prot.dropLast ++ [demoted] := KL.getLast?_spec hgl
        have hprlen : t.prot.length = t.prot.dropLast.length + 1 := by
          conv_lhs => rw [hprspec]
          simp
        have hS2 : TinyLFU.Set c t newIt = { t with
            probation := demoted :: eraseK newIt.key
              (updValue newIt.key newIt.value t.probation),
            prot := { old with value := newIt.value } :: t.prot.dropLast,
            sketch := cmAdd t.sketch newIt.key } := by
          rw [hS]
          unfold slruGet
          simp only [hqnone, hP]
          rw [if_neg hlen]
          simp only [hgl]
        have hfo : findOwner (TinyLFU.Set c t newIt) newIt.key
            = some (.prot, { old with value := newIt.value }) := by
          rw [hS2]
          refine findOwner_prot_of h0 ?_ ?_
          · rw [show findK newIt.key (demoted :: eraseK newIt.key
                (updValue newIt.key newIt.value t.probation))
                = findK newIt.key (eraseK newIt.key
                  (updValue newIt.key newIt.value t.probation)) from
              KL.findKy_cons_neg hdk _]
            exact KL.findKy_eraseKy_self hpnodup
          · have hcons : KL.findKy Item.key newIt.key
                ({ old with value := newIt.value } :: t.prot.dropLast)
                = some { old with value := newIt.value } := by
              refine KL.findKy_cons_pos ?_ _
              exact hkey
            exact hcons
        refine ⟨by rw [hfo]; rfl, by rw [hS2], ?_, ?_, ?_⟩
        · have hds : dictSize (TinyLFU.Set c t newIt)
              = t.window.length
                + (demoted :: eraseK newIt.key
                    (updValue newIt.key newIt.value t.probation)).length
                + ({ old with value := newIt.value } :: t.prot.dropLast).length := by
            rw [hS2]
            rfl
          rw [hds]
          simp only [List.length_cons]
          unfold dictSize
          omega
        · have hsk : (TinyLFU.Set c t newIt).sketch = cmAdd t.sketch newIt.key := by
            rw [hS2]
          rw [hsk, cmEstimate_cmAdd_self]
          omega
        · refine ownerMRU_prot_of hfo ?_
          have hpr : (TinyLFU.Set c t newIt).prot
              = { old with value := newIt.value } :: t.prot.dropLast := by
            rw [hS2]
          rw [hpr]
          simp [keysOf, hkey]
  | prot =>
    obtain ⟨h0, h1, h2⟩ := findOwner_prot_inv hf
    have hkey : old.key = newIt.key := findK_some_key h2
    have hnw : updValue newIt.key newIt.value t.window = t.window :=
      updValue_of_not_mem (findK_eq_none_iff.mp h0)
    have hnp : updValue newIt.key newIt.value t.probation = t.probation :=
      updValue_of_not_mem (findK_eq_none_iff.mp h1)
    have hQ : findK newIt.key (updValue newIt.key newIt.value t.prot)
        = some { old with value := newIt.value } := findK_updValue_self h2
    have hS : TinyLFU.Set c t newIt = slruGet c { t with
        prot := updValue newIt.key newIt.value t.prot,
        sketch := cmAdd t.sketch newIt.key } newIt.key := by
      rw [hset]
      unfold setExisting
      rw [hnw, hnp]
    have hS2 : TinyLFU.Set c t newIt = { t with
        prot := moveToFrontK newIt.key (updValue newIt.key newIt.value t.prot),
        sketch := cmAdd t.sketch newIt.key } := by
      rw [hS]
      unfold slruGet
      simp only [hQ]
    have hfind : findK newIt.key
        (moveToFrontK newIt.key (updValue newIt.key newIt.value t.prot))
        = some { old with value := newIt.value } := KL.findKy_moveKy_self hQ
    have hfo : findOwner (TinyLFU.Set c t newIt) newIt.key
        = some (.prot, { old with value := newIt.value }) := by
      rw [hS2]
      exact findOwner_prot_of h0 h1 hfind
    refine ⟨by rw [hfo]; rfl, by rw [hS2], ?_, ?_, ?_⟩
    · have hds : dictSize (TinyLFU.Set c t newIt)
          = t.window.length + t.probation.length
            + (moveToFrontK newIt.key (updValue newIt.key newIt.value t.prot)).length := by
        rw [hS2]
        rfl
      rw [hds, length_moveToFrontK, length_updValue]
      rfl
    · have hsk : (TinyLFU.Set c t newIt).sketch = cmAdd t.sketch newIt.key := by
        rw [hS2]
      rw [hsk, cmEstimate_cmAdd_self]
      omega
    · refine ownerMRU_prot_of hfo ?_
      have hpr : (TinyLFU.Set c t newIt).prot
          = moveToFrontK newIt.key (updValue newIt.key newIt.value t.prot) := by
        rw [hS2]
      rw [hpr]
      unfold moveToFrontK
      rw [KL.moveKy_eq_of_find hQ]
      simp [keysOf, hkey]

/-- Witness for C5: updating a probation-resident key replaces its value,
keeps its expiry, bumps its estimate and promotes it to protected's MRU
end with no eviction. -/
theorem claim_c5_update_witness :
    (findOwner (TinyLFU.Set ⟨100, 1, 1, 1⟩
        ⟨0, [], [], [], [⟨6, some 1, some 50, true⟩], [], []⟩
        ⟨6, some 2, some 999, false⟩) 6).map Prod.snd
      = some ⟨6, some 2, some 50, true⟩
    ∧ (TinyLFU.Set ⟨100, 1, 1, 1⟩
        ⟨0, [], [], [], [⟨6, some 1, some 50, true⟩], [], []⟩
        ⟨6, some 2, some 999, false⟩).evLog = []
    ∧ dictSize (TinyLFU.Set ⟨100, 1, 1, 1⟩
        ⟨0, [], [], [], [⟨6, some 1, some 50, true⟩], [], []⟩
        ⟨6, some 2, some 999, false⟩)
      = dictSize ⟨0, [], [], [], [⟨6, some 1, some 50, true⟩], [], []⟩
    ∧ cmEstimate (TinyLFU.Set ⟨100, 1, 1, 1⟩
        ⟨0, [], [], [], [⟨6, some 1, some 50, true⟩], [], []⟩
        ⟨6, some 2, some 999, false⟩).sketch 6 = 1
    ∧ ownerMRU (TinyLFU.Set ⟨100, 1, 1, 1⟩
        ⟨0, [], [], [], [⟨6, some 1, some 50, true⟩], [], []⟩
        ⟨6, some 2, some 999, false⟩) 6 = true := by
  have h := claim_c5_update ⟨100, 1, 1, 1⟩
    ⟨0, [], [], [], [⟨6, some 1, some 50, true⟩], [], []⟩
    ⟨6, some 2, some 999, false⟩ ListId.probation ⟨6, some 1, some 50, true⟩
    (by decide) (by decide) (by decide)
  refine ⟨h.1, h.2.1, h.2.2.1, ?_, h.2.2.2.2⟩
  rw [h.2.2.2.1]
  decide

namespace KL

theorem getLast?_none_iff {α : Type} {l : List α} : l.getLast? = none ↔ l = [] := by
  induction l with
  | nil => simp
  | cons a rest ih =>
    cases rest with
    | nil => simp
    | cons b rest2 =>
      rw [List.getLast?_cons_cons]
      constructor
      · intro h
        exact absurd (ih.mp h) (by simp)
      · intro h
        simp at h

end KL

namespace TinyLFU

theorem wfLen_of_len {c : Cfg} {t2 t1 : T}
    (hW : t2.window.length = t1.window.length)
    (hP : t2.probation.length = t1.probation.length)
    (hQ : t2.prot.length = t1.prot.length) (h : WfLen c t1) : WfLen c t2 := by
  obtain ⟨h1, h2, h3, h4, h5⟩ := h
  exact ⟨by rw [hW]; exact h1, by rw [hP, hQ]; exact h2, by rw [hQ]; exact h3, h4, h5⟩

theorem wfLen_onEvict {c : Cfg} {t : T} (h : WfLen c t) (it : Item) :
    WfLen c (onEvict t it) :=
  wfLen_of_len (by rw [(onEvict_proj t it).2.2.2.1])
    (by rw [(onEvict_proj t it).2.2.2.2.1])
    (by rw [(onEvict_proj t it).2.2.2.2.2]) h

theorem wfLen_slruAdd {c : Cfg} {t : T} (h : WfLen c t) (it : Item) :
    WfLen c (slruAdd c t it) := by
  obtain ⟨h1, h2, h3, h4, h5⟩ := h
  unfold slruAdd
  split
  · rename_i hlt
    exact ⟨h1, by simp only [List.length_cons]; omega, h3, h4, h5⟩
  · rename_i hge
    split
    · rename_i hnone
      have hempty : t.probation = [] := KL.getLast?_none_iff.mp hnone
      rw [hempty] at hge
      simp only [List.length_nil] at hge
      refine ⟨h1, ?_, h3, h4, h5⟩
      simp only [List.length_singleton]
      omega
    · rename_i victim hsome
      have hne : t.probation ≠ [] := by
        intro hh
        rw [KL.getLast?_none_iff.mpr hh] at hsome
        cases hsome
      have hpos : 0 < t.probation.length := List.length_pos.mpr hne
      have hdl : t.probation.dropLast.length = t.probation.length - 1 :=
        List.length_dropLast _
      refine wfLen_onEvict ?_ victim
      refine ⟨h1, ?_, h3, h4, h5⟩
      simp only [List.length_cons]
      omega

theorem wfLen_slruGet {c : Cfg} {t : T} (h : WfLen c t) (k : Nat) :
    WfLen c (slruGet c t k) := by
  obtain ⟨h1, h2, h3, h4, h5⟩ := h
  unfold slruGet
  split
  · refine ⟨h1, ?_, ?_, h4, h5⟩
    · rw [show ({ t with prot := moveToFrontK k t.prot } : T).probation
          = t.probation from rfl]
      rw [show ({ t with prot := moveToFrontK k t.prot } : T).prot
          = moveToFrontK k t.prot from rfl]
      rw [length_moveToFrontK]
      exact h2
    · rw [show ({ t with prot := moveToFrontK k t.prot } : T).prot
          = moveToFrontK k t.prot from rfl]
      rw [length_moveToFrontK]
      exact h3
  · split
    · exact ⟨h1, h2, h3, h4, h5⟩
    · rename_i it hfp
      have herl : (eraseK k t.probation).length + 1 = t.probation.length :=
        KL.length_eraseKy_of_find hfp
      split
      · rename_i hlt
        refine ⟨h1, ?_, ?_, h4, h5⟩
        · simp only [List.length_cons]
          omega
        · simp only [List.length_cons]
          omega
      · rename_i hge
        split
        · refine ⟨h1, ?_, h3, h4, h5⟩
          rw [show ({ t with probation := moveToFrontK k t.probation } : T).probation
              = moveToFrontK k t.probation from rfl]
          rw [length_moveToFrontK]
          exact h2
        · rename_i demoted hsome
          have hne : t.prot ≠ [] := by
            intro hh
            rw [KL.getLast?_none_iff.mpr hh] at hsome
            cases hsome
          have hpos : 0 < t.prot.length := List.length_pos.mpr hne
          have hdl : t.prot.dropLast.length = t.prot.length - 1 :=
            List.length_dropLast _
          refine ⟨h1, ?_, ?_, h4, h5⟩
          · simp only [List.length_cons]
            omega
          · simp only [List.length_cons]
            omega

theorem lruAdd_cases (cap : Nat) (it : Item) (win : List Item) :
    (win.length < cap ∧ lruAdd cap it win = (none, it :: win))
    ∨ (¬win.length < cap ∧ win.getLast? = none ∧ lruAdd cap it win = (none, [it]))
    ∨ (∃ old, ¬win.length < cap ∧ win.getLast? = some old ∧
        lruAdd cap it win = (some old, it :: win.dropLast)) := by
  by_cases hlt : win.length < cap
  · left
    exact ⟨hlt, by unfold lruAdd; rw [if_pos hlt]⟩
  · rcases hgl : win.getLast? with _ | old
    · right
      left
      exact ⟨hlt, rfl, by unfold lruAdd; rw [if_neg hlt, hgl]⟩
    · right
      right
      exact ⟨old, hlt, rfl, by unfold lruAdd; rw [if_neg hlt, hgl]⟩

theorem setNew_eq_cases (c : Cfg) (t : T) (newIt : Item) :
    (t.window.length < c.lruCap
      ∧ setNew c t newIt = { t with window := newIt :: t.window })
    ∨ (¬t.window.length < c.lruCap ∧ t.window.getLast? = none
      ∧ setNew c t newIt = { t with window := [newIt] })
    ∨ (∃ old, ¬t.window.length < c.lruCap ∧ t.window.getLast? = some old
      ∧ setNew c t newIt
          = setOnEvicted c { t with window := newIt :: t.window.dropLast } old) := by
  rcases lruAdd_cases c.lruCap newIt t.window with ⟨hlt, heq⟩ | ⟨hge, hgl, heq⟩
    | ⟨old, hge, hgl, heq⟩
  · left
    exact ⟨hlt, by unfold setNew; rw [heq]⟩
  · right
    left
    exact ⟨hge, hgl, by unfold setNew; rw [heq]⟩
  · right
    right
    exact ⟨old, hge, hgl, by unfold setNew; rw [heq]⟩

theorem wfLen_setOnEvicted {c : Cfg} {t1 : T} (h : WfLen c t1) (old : Item) :
    WfLen c (setOnEvicted c t1 old) := by
  unfold setOnEvicted
  split
  · exact wfLen_slruAdd h old
  · rcases hdk : dkAllow t1.door old.key with ⟨seen, door2⟩
    simp only [hdk]
    have h2 : WfLen c { t1 with door := door2 } := wfLen_of_len rfl rfl rfl h
    split
    · exact wfLen_onEvict h2 old
    · split
      · exact wfLen_slruAdd h2 old
      · exact wfLen_onEvict h2 old

theorem wfLen_setNew {c : Cfg} {t : T} (h : WfLen c t) (newIt : Item) :
    WfLen c (setNew c t newIt) := by
  obtain ⟨h1, h2, h3, h4, h5⟩ := h
  rcases setNew_eq_cases c t newIt with ⟨hlt, heq⟩ | ⟨hge, hgl, heq⟩
    | ⟨old, hge, hgl, heq⟩
  · rw [heq]
    exact ⟨by simp only [List.length_cons]; omega, h2, h3, h4, h5⟩
  · rw [heq]
    exact ⟨by simp only [List.length_singleton]; omega, h2, h3, h4, h5⟩
  · rw [heq]
    have hdl : t.window.dropLast.length = t.window.length - 1 :=
      List.length_dropLast _
    refine wfLen_setOnEvicted ?_ old
    refine ⟨?_, h2, h3, h4, h5⟩
    simp only [List.length_cons]
    omega

theorem wfLen_setExisting {c : Cfg} {t : T} (h : WfLen c t) (newIt : Item)
    (lid : ListId) : WfLen c (setExisting c t newIt lid) := by
  cases lid with
  | window =>
    refine wfLen_of_len ?_ ?_ ?_ h
    · rw [show (setExisting c t newIt ListId.window).window
          = moveToFrontK newIt.key (updValue newIt.key newIt.value t.window) from rfl]
      rw [length_moveToFrontK, length_updValue]
    · rw [show (setExisting c t newIt ListId.window).probation
          = updValue newIt.key newIt.value t.probation from rfl]
      rw [length_updValue]
    · rw [show (setExisting c t newIt ListId.window).prot
          = updValue newIt.key newIt.value t.prot from rfl]
      rw [length_updValue]
  | probation =>
    have hmid : WfLen c { t with
        window := updValue newIt.key newIt.value t.window,
        probation := updValue newIt.key newIt.value t.probation,
        prot := updValue newIt.key newIt.value t.prot,
        sketch := cmAdd t.sketch newIt.key } :=
      wfLen_of_len (by rw [show ({ t with
          window := updValue newIt.key newIt.value t.window,
          probation := updValue newIt.key newIt.value t.probation,
          prot := updValue newIt.key newIt.value t.prot,
          sketch := cmAdd t.sketch newIt.key } : T).window
            = updValue newIt.key newIt.value t.window from rfl, length_updValue])
        (by rw [show ({ t with
          window := updValue newIt.key newIt.value t.window,
          probation := updValue newIt.key newIt.value t.probation,
          prot := updValue newIt.key newIt.value t.prot,
          sketch := cmAdd t.sketch newIt.key } : T).probation
            = updValue newIt.key newIt.value t.probation from rfl, length_updValue])
        (by rw [show ({ t with
          window := updValue newIt.key newIt.value t.window,
          probation := updValue newIt.key newIt.value t.probation,
          prot := updValue newIt.key newIt.value t.prot,
          sketch := cmAdd t.sketch newIt.key } : T).prot
            = updValue newIt.key newIt.value t.prot from rfl, length_updValue]) h
    exact wfLen_slruGet hmid newIt.key
  | prot =>
    have hmid : WfLen c { t with
        window := updValue newIt.key newIt.value t.window,
        probation := updValue newIt.key newIt.value t.probation,
        prot := updValue newIt.key newIt.value t.prot,
        sketch := cmAdd t.sketch newIt.key } :=
      wfLen_of_len (by rw [show ({ t with
          window := updValue newIt.key newIt.value t.window,
          probation := updValue newIt.key newIt.value t.probation,
          prot := updValue newIt.key newIt.value t.prot,
          sketch := cmAdd t.sketch newIt.key } : T).window
            = updValue newIt.key newIt.value t.window from rfl, length_updValue])
        (by rw [show ({ t with
          window := updValue newIt.key newIt.value t.window,
          probation := updValue newIt.key newIt.value t.probation,
          prot := updValue newIt.key newIt.value t.prot,
          sketch := cmAdd t.sketch newIt.key } : T).probation
            = updValue newIt.key newIt.value t.probation from rfl, length_updValue])
        (by rw [show ({ t with
          window := updValue newIt.key newIt.value t.window,
          probation := updValue newIt.key newIt.value t.probation,
          prot := updValue newIt.key newIt.value t.prot,
          sketch := cmAdd t.sketch newIt.key } : T).prot
            = updValue newIt.key newIt.value t.prot from rfl, length_updValue]) h
    exact wfLen_slruGet hmid newIt.key

theorem wfLen_set {c : Cfg} {t : T} (h : WfLen c t) (newIt : Item) (b : Bool) :
    WfLen c (TinyLFU.set c t newIt b).2 := by
  unfold TinyLFU.set
  split
  · split
    · exact h
    · exact wfLen_setExisting h newIt _
  · exact wfLen_setNew h newIt

theorem wfLen_runOps (c : Cfg) (ops : List Op) :
    ∀ t : T, WfLen c t → WfLen c (runOps c t ops) := by
  induction ops with
  | nil =>
    intro t h
    exact h
  | cons o rest ih =>
    intro t h
    unfold runOps
    cases o with
    | setOp it => exact ih _ (wfLen_set h it false)
    | addOp it => exact ih _ (wfLen_set h it true)

theorem wfLen_new (n samples : Nat) : WfLen (New n samples).1 (New n samples).2 := by
  unfold New WfLen
  refine ⟨Nat.zero_le _, Nat.zero_le _, Nat.zero_le _, ?_, ?_⟩
  · exact Nat.le_max_right _ _
  · exact Nat.le_max_right _ _

theorem dictSize_le_caps {c : Cfg} {t : T} (h : WfLen c t) :
    dictSize t ≤ c.lruCap + c.probCap + c.protCap := by
  obtain ⟨h1, h2, _, _, _⟩ := h
  unfold dictSize
  omega

theorem new_caps_le (n samples : Nat) (hn : 2 ≤ n) :
    (New n samples).1.lruCap + (New n samples).1.probCap
      + (New n samples).1.protCap ≤ n := by
  show max ((1 * n) / 100) 1 + max ((max ((99 * n) / 100) 1) / 5) 1
      + (max ((99 * n) / 100) 1 - max ((max ((99 * n) / 100) 1) / 5) 1) ≤ n
  have h20 : max ((max ((99 * n) / 100) 1) / 5) 1 ≤ max ((99 * n) / 100) 1 :=
    max_le (Nat.div_le_self _ _) (le_max_right _ _)
  have hsum : max ((1 * n) / 100) 1 + max ((99 * n) / 100) 1 ≤ n := by
    rw [one_mul]
    have hdivlt : (99 * n) / 100 < n := by
      apply Nat.div_lt_of_lt_mul
      omega
    have hb1 : 1 ≤ (99 * n) / 100 := by
      refine (Nat.le_div_iff_mul_le (by omega)).mpr ?_
      omega
    rw [max_eq_left hb1]
    by_cases hbig : 100 ≤ n
    · have ha1 : 1 ≤ n / 100 := by
        refine (Nat.le_div_iff_mul_le (by omega)).mpr ?_
        omega
      rw [max_eq_left ha1]
      have hd : n / 100 + (99 * n) / 100 ≤ (n + 99 * n) / 100 := by
        refine (Nat.le_div_iff_mul_le (by omega)).mpr ?_
        have u1 := Nat.div_mul_le_self n 100
        have u2 := Nat.div_mul_le_self (99 * n) 100
        omega
      have he : (n + 99 * n) / 100 = n := by
        have hnn : n + 99 * n = n * 100 := by ring
        rw [hnn, Nat.mul_div_cancel _ (by omega)]
      omega
    · have ha0 : n / 100 = 0 := Nat.div_eq_of_lt (by omega)
      rw [ha0, max_eq_right (Nat.zero_le 1)]
      omega
  omega

end TinyLFU

namespace TinyLFU

theorem dictSize_slruGet (c : Cfg) (t : T) (k : Nat) :
    dictSize (slruGet c t k) = dictSize t := by
  unfold slruGet
  split
  · have h1 : dictSize { t with prot := moveToFrontK k t.prot }
        = t.window.length + t.probation.length + (moveToFrontK k t.prot).length := rfl
    rw [h1, length_moveToFrontK]
    rfl
  · split
    · rfl
    · rename_i it hfp
      have herl : (eraseK k t.probation).length + 1 = t.probation.length :=
        KL.length_eraseKy_of_find hfp
      split
      · have h1 : dictSize
            { t with
              probation := eraseK k t.probation,
              prot := it :: t.prot }
            = t.window.length + (eraseK k t.probation).length
              + (it :: t.prot).length := rfl
        rw [h1]
        unfold dictSize
        simp only [List.length_cons]
        omega
      · split
        · have h1 : dictSize { t with probation := moveToFrontK k t.probation }
              = t.window.length + (moveToFrontK k t.probation).length
                + t.prot.length := rfl
          rw [h1, length_moveToFrontK]
          rfl
        · rename_i demoted hsome
          have hne : t.prot ≠ [] := by
            intro hh
            rw [KL.getLast?_none_iff.mpr hh] at hsome
            cases hsome
          have hpos : 0 < t.prot.length := List.length_pos.mpr hne
          have hdl : t.prot.dropLast.length = t.prot.length - 1 :=
            List.length_dropLast _
          have h1 : dictSize
              { t with
                probation := demoted :: eraseK k t.probation,
                prot := it :: t.prot.dropLast }
              = t.window.length + (demoted :: eraseK k t.probation).length
                + (it :: t.prot.dropLast).length := rfl
          rw [h1]
          unfold dictSize
          simp only [List.length_cons]
          omega

theorem dictSize_setExisting (c : Cfg) (t : T) (newIt : Item) (lid : ListId) :
    dictSize (setExisting c t newIt lid) = dictSize t := by
  cases lid with
  | window =>
    have h1 : dictSize (setExisting c t newIt ListId.window)
        = (moveToFrontK newIt.key (updValue newIt.key newIt.value t.window)).length
          + (updValue newIt.key newIt.value t.probation).length
          + (updValue newIt.key newIt.value t.prot).length := rfl
    rw [h1, length_moveToFrontK, length_updValue, length_updValue, length_updValue]
    rfl
  | probation =>
    have h1 : setExisting c t newIt ListId.probation = slruGet c { t with
        window := updValue newIt.key newIt.value t.window,
        probation := updValue newIt.key newIt.value t.probation,
        prot := updValue newIt.key newIt.value t.prot,
        sketch := cmAdd t.sketch newIt.key } newIt.key := rfl
    rw [h1, dictSize_slruGet]
    have h2 : dictSize { t with
        window := updValue newIt.key newIt.value t.window,
        probation := updValue newIt.key newIt.value t.probation,
        prot := updValue newIt.key newIt.value t.prot,
        sketch := cmAdd t.sketch newIt.key }
        = (updValue newIt.key newIt.value t.window).length
          + (updValue newIt.key newIt.value t.probation).length
          + (updValue newIt.key newIt.value t.prot).length := rfl
    rw [h2, length_updValue, length_updValue, length_updValue]
    rfl
  | prot =>
    have h1 : setExisting c t newIt ListId.prot = slruGet c { t with
        window := updValue newIt.key newIt.value t.window,
        probation := updValue newIt.key newIt.value t.probation,
        prot := updValue newIt.key newIt.value t.prot,
        sketch := cmAdd t.sketch newIt.key } newIt.key := rfl
    rw [h1, dictSize_slruGet]
    have h2 : dictSize { t with
        window := updValue newIt.key newIt.value t.window,
        probation := updValue newIt.key newIt.value t.probation,
        prot := updValue newIt.key newIt.value t.prot,
        sketch := cmAdd t.sketch newIt.key }
        = (updValue newIt.key newIt.value t.window).length
          + (updValue newIt.key newIt.value t.probation).length
          + (updValue newIt.key newIt.value t.prot).length := rfl
    rw [h2, length_updValue, length_updValue, length_updValue]
    rfl

theorem dictSize_set_resident (c : Cfg) (t : T) (newIt : Item) (b : Bool)
    (hf : (findOwner t newIt.key).isSome) :
    dictSize (TinyLFU.set c t newIt b).2 = dictSize t := by
  rcases hfo : findOwner t newIt.key with _ | p
  · rw [hfo] at hf
    simp at hf
  · rcases p with ⟨lid, old⟩
    have h1 : TinyLFU.set c t newIt b
        = (if b = true then (some SetErr.keyAlreadyExists, t)
           else (none, setExisting c t newIt lid)) := by
      unfold TinyLFU.set
      rw [hfo]
    rw [h1]
    cases b
    · rw [if_neg (by decide : ¬false = true)]
      exact dictSize_setExisting c t newIt lid
    · rw [if_pos rfl]

end TinyLFU

/-- C3 (amended: the bound holds for every capacity n at least 2; for
n = 1 the constructor's floors of 1 give a window of 1 plus a main cache
of 1, so up to 2 entries can be live — see the counterexample): over every
sequence of `Set`/`Add` calls on a cache built with capacity n at least 2,
the number of live Dictionary entries never exceeds n; the window and
segmented-main capacities chosen by the constructor sum to at most n; and
an upsert of an already-resident key never changes the number of live
entries (no second live entry is created). -/
theorem claim_c3_capacity_bound (n samples : Nat) (hn : 2 ≤ n) (ops : List Op) :
    dictSize (runOps (New n samples).1 (New n samples).2 ops) ≤ n
    ∧ (New n samples).1.lruCap + (New n samples).1.probCap
        + (New n samples).1.protCap ≤ n
    ∧ ∀ (c : Cfg) (t : T) (newIt : Item) (b : Bool),
        (findOwner t newIt.key).isSome →
        dictSize (TinyLFU.set c t newIt b).2 = dictSize t := by
  refine ⟨?_, new_caps_le n samples hn,
    fun c t newIt b hf => dictSize_set_resident c t newIt b hf⟩
  have hwf := wfLen_runOps (New n samples).1 ops (New n samples).2 (wfLen_new n samples)
  exact le_trans (dictSize_le_caps hwf) (new_caps_le n samples hn)

/-- Witness for C3 at capacity 3 with four operations, one of them a
re-insertion of a resident key. -/
theorem claim_c3_capacity_bound_witness :
    dictSize (runOps (New 3 16).1 (New 3 16).2
      [Op.setOp ⟨1, some 1, none, false⟩, Op.setOp ⟨2, some 2, none, false⟩,
       Op.setOp ⟨3, some 3, none, false⟩, Op.setOp ⟨1, some 9, none, false⟩]) ≤ 3
    ∧ (New 3 16).1.lruCap + (New 3 16).1.probCap + (New 3 16).1.protCap ≤ 3 := by
  have h := claim_c3_capacity_bound 3 16 (by decide)
    [Op.setOp ⟨1, some 1, none, false⟩, Op.setOp ⟨2, some 2, none, false⟩,
     Op.setOp ⟨3, some 3, none, false⟩, Op.setOp ⟨1, some 9, none, false⟩]
  exact ⟨h.1, h.2.1⟩
